import Mathlib

/-!
Shallow embedding of the textframe library (src/lib.rs): the position index
(sparse charpos→bytepos mapping built by a sequential scan), char→byte and
line→byte conversion, offset normalization, and the frame cache of a TextFile.

Modelling conventions:
- A text file that is valid UTF-8 is represented by its decoded content, a
  `List Char`; byte offsets are recovered through `Char.utf8Size`, which is
  exactly Rust's `char::len_utf8`. The byte-level reader (needed for the
  invalid-UTF-8 behaviour of `PositionIndex::new`) is modelled separately on
  `List Nat` byte lists with a faithful UTF-8 decoder.
- Rust `Result` values are `RustResult`; the extra `panicked` constructor
  models aborts (`unreachable!`, `expect`, slice-index panics).
- Machine integers (`usize`, `isize`) are modelled as `Nat`/`Int`; none of the
  claims concerns overflow of 64-bit quantities.  The width-polymorphic
  `Positions`/`Lines` storage (u16/u32/u64 vectors) stores identical values
  whenever they fit the selected width, which the construction guarantees, so
  the scan is modelled over plain `Nat` entries; the width-selection logic
  itself is modelled by `Positions.new`/`Lines.new`.
- The SHA-256 checksum accumulator is an external collaborator and no claim
  concerns its value, so it is not modelled.
-/

/-- The error enum of the library (payloads kept only where a claim needs
them). -/
inductive Error where
  | OutOfBoundsError (b e : Int)
  | EmptyText
  | IOError
  | Utf8Error
  | InvalidHandle
  | IndexError
  | NotLoaded
  | NoLineIndex
deriving DecidableEq

/-- Result of running a fallible Rust function: `ok`, an `Error`, or an abort
of the process (`unreachable!`, failed `expect`, out-of-range slice). -/
inductive RustResult (α : Type) where
  | ok (val : α)
  | err (e : Error)
  | panicked
deriving DecidableEq

/-- One sparse sample of the position index (`PositionData` in the source):
the start of a run of characters that share one UTF-8 byte width. -/
structure PosEntry where
  charpos : Nat
  bytepos : Nat
  size : Nat
deriving DecidableEq

/-- `PositionIndex` of the source: totals, the sparse position table and the
optional line table (checksum omitted, see module comment). -/
structure PositionIndex where
  charsize : Nat
  bytesize : Nat
  positions : List PosEntry
  lines : List Nat
deriving DecidableEq

/-- Text file mode: whether a line index is computed. -/
inductive TextFileMode where
  | NoLineIndex
  | WithLineIndex
deriving DecidableEq

/-- The width-polymorphic position storage of the source; the three variants
store u16/u32/u64 `PositionData` respectively (contents modelled as `Nat`). -/
inductive Positions where
  | Small (v : List PosEntry)
  | Large (v : List PosEntry)
  | Huge (v : List PosEntry)
deriving DecidableEq

/-- `Positions::new`: select the storage width from the file byte size. -/
def Positions.new (filesize : Nat) : Positions :=
  if filesize < 65536 then .Small []
  else if filesize < 4294967296 then .Large []
  else .Huge []

/-- The width-polymorphic line storage of the source (u16/u32/u64 vectors). -/
inductive Lines where
  | Small (v : List Nat)
  | Large (v : List Nat)
  | Huge (v : List Nat)
deriving DecidableEq

/-- `Lines::new`: select the storage width from the file byte size. -/
def Lines.new (filesize : Nat) : Lines :=
  if filesize < 65536 then .Small []
  else if filesize < 4294967296 then .Large []
  else .Huge []

/-- Total UTF-8 byte length of a character sequence. -/
def byteLen (σ : List Char) : Nat := (σ.map Char.utf8Size).sum

/-- UTF-8 byte width of the character at index `k` (0 beyond the end). -/
def widthAt (σ : List Char) (k : Nat) : Nat :=
  match σ.get? k with
  | some c => c.utf8Size
  | none => 0

/-- UTF-8 byte width of the last character (0 for the empty sequence); this is
the value of the scan variable `prevcharsize` after processing `σ`. -/
def lastWidth (σ : List Char) : Nat :=
  match σ.getLast? with
  | some c => c.utf8Size
  | none => 0

/-- The per-character scan state of `PositionIndex::new`: the mutable
variables `charpos`, `bytepos`, `prevcharsize` and the growing `positions`
table. -/
structure ScanCore where
  charpos : Nat
  bytepos : Nat
  prevcharsize : Nat
  positions : List PosEntry
deriving DecidableEq

/-- The body of `for char in line.chars()` of `PositionIndex::new`: push a new
position entry whenever the byte width changes, then advance the counters. -/
def scanChar (s : ScanCore) (c : Char) : ScanCore :=
  let w := c.utf8Size
  { charpos := s.charpos + 1
    bytepos := s.bytepos + w
    prevcharsize := w
    positions :=
      if w ≠ s.prevcharsize then s.positions ++ [⟨s.charpos, s.bytepos, w⟩]
      else s.positions }

/-- Initial scan state (all counters 0, `prevcharsize = 0`, empty table). -/
def initCore : ScanCore := ⟨0, 0, 0, []⟩

/-- The whole-file character scan (the line-by-line reading of the source
threads this state through unchanged; see `scanLines_core`). -/
def scanChars (σ : List Char) : ScanCore := σ.foldl scanChar initCore

/-- Scan state including the line table built alongside the character scan. -/
structure ScanState where
  core : ScanCore
  lines : List Nat
deriving DecidableEq

/-- Processing of one line of the file in `PositionIndex::new`: record the
byte offset of the line start (if line indexing is on), then scan its
characters. -/
def scanLine (mode : TextFileMode) (s : ScanState) (cs : List Char) : ScanState :=
  { core := cs.foldl scanChar s.core
    lines :=
      if mode = TextFileMode.WithLineIndex then s.lines ++ [s.core.bytepos]
      else s.lines }

/-- The loop of `PositionIndex::new` over the lines returned by `read_line`. -/
def scanLines (mode : TextFileMode) (s : ScanState) (lss : List (List Char)) : ScanState :=
  lss.foldl (scanLine mode) s

/-- Split a character sequence into the chunks returned by successive
`read_line` calls: each chunk ends with (and includes) a newline, except
possibly the last. -/
def splitLinesC : List Char → List (List Char)
  | [] => []
  | c :: rest =>
    if c = '\n' then [c] :: splitLinesC rest
    else
      match splitLinesC rest with
      | [] => [[c]]
      | l :: ls => (c :: l) :: ls

/-- `PositionIndex::new` on a valid-UTF-8 file given by its decoded content:
scan line by line, then append the final end-of-file line entry. -/
def PositionIndex.new (σ : List Char) (mode : TextFileMode) : PositionIndex :=
  let s := scanLines mode ⟨initCore, []⟩ (splitLinesC σ)
  { charsize := s.core.charpos
    bytesize := s.core.bytepos
    positions := s.core.positions
    lines :=
      if mode = TextFileMode.WithLineIndex then s.lines ++ [s.core.bytepos]
      else s.lines }

/-- First index of an entry satisfying `p` (models the index returned by a
successful `binary_search_by_key`, which is unique on the strictly sorted
tables the library builds). -/
def firstIdx (p : PosEntry → Bool) : List PosEntry → Option Nat
  | [] => none
  | x :: xs => if p x then some 0 else (firstIdx p xs).map (· + 1)

/-- Result of `slice::binary_search_by_key`. -/
inductive SearchResult where
  | found (i : Nat)
  | missed (i : Nat)
deriving DecidableEq

/-- Model of `Positions::binary_search` by the contract of Rust's
`slice::binary_search_by_key`: on a slice sorted by `charpos` it returns
`found i` at the matching index and otherwise `missed i` at the insertion
point, i.e. the number of entries with a smaller key.  On the strictly sorted
tables built by the scan this determines the result completely. -/
def bsearch (ps : List PosEntry) (c : Nat) : SearchResult :=
  match firstIdx (fun p => p.charpos == c) ps with
  | some i => .found i
  | none => .missed (ps.countP (fun p => decide (p.charpos < c)))

/-- Dispatch of `TextFile::chars_to_bytes` on the outcome of the binary
search: on an exact match return the stored byte position, on a miss
interpolate from the nearest entry below using the run's byte width.  The
`expect` unwraps of the source are modelled by `panicked`. -/
def c2bAt (idx : PositionIndex) (charpos : Nat) : SearchResult → RustResult Nat
  | .found i =>
    match idx.positions.get? i with
    | some p => .ok p.bytepos
    | none => .panicked
  | .missed 0 => .err .EmptyText
  | .missed (i + 1) =>
    match idx.positions.get? i with
    | some p =>
      if p.bytepos + p.size * (charpos - p.charpos) > idx.bytesize then
        .err (.OutOfBoundsError ((p.bytepos + p.size * (charpos - p.charpos) : Nat) : Int) 0)
      else .ok (p.bytepos + p.size * (charpos - p.charpos))
    | none => .panicked

/-- `TextFile::chars_to_bytes`: binary search the position table and resolve
the result through `c2bAt`. -/
def chars_to_bytes (idx : PositionIndex) (charpos : Nat) : RustResult Nat :=
  c2bAt idx charpos (bsearch idx.positions charpos)

/-- `TextFile::absolute_pos`: resolve a possibly-negative `(begin, end)` pair
of character offsets against `charsize`.  The four addressing modes of the
source are translated branch by branch; negative values are resolved through
`Int.natAbs` (the source computes the same values via wrapping `usize`
arithmetic under its guards).  The final branch is the source's
`unreachable!`. -/
def absolute_pos (charsize : Nat) (b e : Int) : RustResult (Nat × Nat) :=
  if 0 ≤ b ∧ 0 < e ∧ b < e then .ok (b.toNat, e.toNat)
  else if 0 ≤ b ∧ e ≤ 0 ∧ e.natAbs ≤ charsize then
    .ok (b.toNat, charsize - e.natAbs)
  else if b < 0 ∧ 0 < e ∧ b.natAbs ≤ charsize then
    let beginAbs := charsize - b.natAbs
    if e.toNat < beginAbs then .err (.OutOfBoundsError b e)
    else .ok (beginAbs, e.toNat)
  else if b < 0 ∧ e ≤ 0 ∧ e.natAbs ≤ charsize ∧ b.natAbs ≤ charsize ∧ e.natAbs < b.natAbs then
    let beginAbs := charsize - b.natAbs
    let endAbs := charsize - e.natAbs
    if endAbs < beginAbs then .err (.OutOfBoundsError b e)
    else .ok (beginAbs, endAbs)
  else .panicked

/-- `TextFile::line_to_bytes`: resolve a (possibly negative) 0-indexed line
number to the byte offset where the line begins; a line number equal to the
table length resolves to `bytesize`. -/
def line_to_bytes (idx : PositionIndex) (line : Int) : RustResult Nat :=
  if idx.lines.length = 0 then .err .NoLineIndex
  else if line < 0 then
    if idx.lines.length < line.natAbs then .err (.OutOfBoundsError line 0)
    else line_to_bytes idx ((idx.lines.length : Int) - (line.natAbs : Int))
  else if line.toNat = idx.lines.length then .ok idx.bytesize
  else
    match idx.lines.get? line.toNat with
    | some b => .ok b
    | none => .err (.OutOfBoundsError line 0)
termination_by (if line < 0 then 1 else 0)
decreasing_by
  split_ifs <;> omega

/-- Drop exactly `n` bytes from the front of a character sequence; `none` when
`n` is not a character boundary (the dropped prefix would split a char) or
exceeds the total byte length. -/
def dropBytes : List Char → Nat → Option (List Char)
  | σ, 0 => some σ
  | [], _ + 1 => none
  | c :: σ, n + 1 =>
    if c.utf8Size ≤ n + 1 then dropBytes σ (n + 1 - c.utf8Size) else none

/-- Take exactly `n` bytes from the front of a character sequence; `none` when
`n` is not a character boundary or exceeds the total byte length. -/
def takeBytes : List Char → Nat → Option (List Char)
  | _, 0 => some []
  | [], _ + 1 => none
  | c :: σ, n + 1 =>
    if c.utf8Size ≤ n + 1 then (takeBytes σ (n + 1 - c.utf8Size)).map (c :: ·) else none

/-- The characters encoded by the byte range `[b, e)` of the UTF-8 encoding of
`σ`; `none` when the range is reversed, exceeds the encoding, or does not fall
on character boundaries.  Because a UTF-8 continuation byte can never start a
character, a byte range decodes successfully if and only if both endpoints are
character boundaries, so this also models `String::from_utf8` applied to the
raw bytes of the range. -/
def byteSliceChars (σ : List Char) (b e : Nat) : Option (List Char) :=
  if e < b then none
  else (dropBytes σ b).bind (fun rest => takeBytes rest (e - b))

/-- A loaded frame: an immutable fragment of file content spanning the byte
range `[beginbyte, endbyte)` (its text stored decoded). -/
structure TextFrame where
  beginbyte : Nat
  endbyte : Nat
  text : List Char
deriving DecidableEq

/-- The state of a `TextFile`: the file content on disk (decoded), the loaded
frames, the `BTreeMap` from start offset to the frame handles starting there
(modelled as a list of buckets sorted by key), and the position index. -/
structure TextFileState where
  content : List Char
  frames : List TextFrame
  frametable : List (Nat × List Nat)
  positionindex : PositionIndex
deriving DecidableEq

/-- `TextFile::new` on an existing file (no index cache involved): scan the
file once, start with no frames. -/
def TextFile.new (σ : List Char) (mode : TextFileMode) : TextFileState :=
  { content := σ
    frames := []
    frametable := []
    positionindex := PositionIndex.new σ mode }

/-- `TextFile::len`. -/
def TextFile.len (st : TextFileState) : Nat := st.positionindex.charsize

/-- `TextFile::len_utf8`. -/
def TextFile.len_utf8 (st : TextFileState) : Nat := st.positionindex.bytesize

/-- Insert a handle into the frame table under key `k`: append to the bucket
at `k` if one exists (`Entry::Occupied`), otherwise create a singleton bucket
in key order (`Entry::Vacant` of the `BTreeMap`). -/
def tableInsert : List (Nat × List Nat) → Nat → Nat → List (Nat × List Nat)
  | [], k, h => [(k, [h])]
  | (k', hs) :: rest, k, h =>
    if k < k' then (k, [h]) :: (k', hs) :: rest
    else if k = k' then (k', hs ++ [h]) :: rest
    else (k', hs) :: tableInsert rest k h

/-- `TextFile::load_frame`: read the byte range `[b, e)` from disk, decode it,
append the new frame and register its handle under `b`.  A reversed range is
an out-of-bounds error, a short read an I/O error, and invalid UTF-8 a decode
error.  Reading zero bytes always succeeds (even past end of file). -/
def load_frame (st : TextFileState) (b e : Nat) : RustResult (TextFileState × Nat) :=
  if b > e then .err (.OutOfBoundsError (b : Int) (e : Int))
  else if b < e ∧ byteLen st.content < e then .err .IOError
  else
    match (if b = e then some [] else byteSliceChars st.content b e) with
    | none => .err .Utf8Error
    | some txt =>
      let hdl := st.frames.length
      .ok ({ st with
              frames := st.frames ++ [⟨b, e, txt⟩]
              frametable := tableInsert st.frametable b hdl }, hdl)

/-- Scan one bucket of the frame table front to back, returning the first
handle whose frame ends at or after `e`. -/
def findInBucket (frames : List TextFrame) (e : Nat) : List Nat → Option Nat
  | [] => none
  | h :: hs =>
    match frames.get? h with
    | some f => if e ≤ f.endbyte then some h else findInBucket frames e hs
    | none => findInBucket frames e hs

/-- Scan buckets in the given order, returning the first hit. -/
def scanBuckets (frames : List TextFrame) (e : Nat) : List (Nat × List Nat) → Option Nat
  | [] => none
  | kv :: rest =>
    match findInBucket frames e kv.2 with
    | some h => some h
    | none => scanBuckets frames e rest

/-- `TextFile::framehandle`: walk the frame-table keys `≤ beginbyte` in
descending order (the source reads `range((Included(0), Included(beginbyte)))`
backwards) and return the first frame that covers the requested end. -/
def framehandle (st : TextFileState) (b e : Nat) : Option Nat :=
  scanBuckets st.frames e ((st.frametable.filter (fun kv => decide (kv.1 ≤ b))).reverse)

/-- `TextFile::frame`: same search, resolving the handle to the frame (the
source duplicates the loop body; under this model the two loops coincide). -/
def TextFile.frame (st : TextFileState) (b e : Nat) : Option TextFrame :=
  (framehandle st b e).bind st.frames.get?

/-- `TextFile::resolve`: look a handle up in the frame store. -/
def TextFile.resolve (st : TextFileState) (h : Nat) : RustResult TextFrame :=
  match st.frames.get? h with
  | some f => .ok f
  | none => .err .InvalidHandle

/-- The slice `&frame.text[(b - frame.beginbyte)..(e - frame.beginbyte)]`:
Rust string slicing panics when the range is reversed, leaves the string, or
misses a character boundary. -/
def frameSlice (f : TextFrame) (b e : Nat) : RustResult (List Char) :=
  if b < f.beginbyte then .panicked
  else
    match byteSliceChars f.text (b - f.beginbyte) (e - f.beginbyte) with
    | some s => .ok s
    | none => .panicked

/-- `TextFile::get_byterange`: require an already-loaded covering frame and
slice it. -/
def get_byterange (st : TextFileState) (b e : Nat) : RustResult (List Char) :=
  match TextFile.frame st b e with
  | none => .err .NotLoaded
  | some f => frameSlice f b e

/-- `TextFile::get`: normalize offsets, convert to bytes, slice a loaded
frame. -/
def TextFile.get (st : TextFileState) (b e : Int) : RustResult (List Char) :=
  match absolute_pos st.positionindex.charsize b e with
  | .err er => .err er
  | .panicked => .panicked
  | .ok (beginchar, endchar) =>
    match chars_to_bytes st.positionindex beginchar with
    | .err er => .err er
    | .panicked => .panicked
    | .ok beginbyte =>
      match chars_to_bytes st.positionindex endchar with
      | .err er => .err er
      | .panicked => .panicked
      | .ok endbyte => get_byterange st beginbyte endbyte

/-- `TextFile::load_abs`: convert absolute character offsets to bytes and load
that frame. -/
def load_abs (st : TextFileState) (beginchar endchar : Nat) : RustResult TextFileState :=
  match chars_to_bytes st.positionindex beginchar with
  | .err er => .err er
  | .panicked => .panicked
  | .ok beginbyte =>
    match chars_to_bytes st.positionindex endchar with
    | .err er => .err er
    | .panicked => .panicked
    | .ok endbyte =>
      match load_frame st beginbyte endbyte with
      | .err er => .err er
      | .panicked => .panicked
      | .ok (st', _) => .ok st'

/-- `TextFile::load`. -/
def TextFile.load (st : TextFileState) (b e : Int) : RustResult TextFileState :=
  match absolute_pos st.positionindex.charsize b e with
  | .err er => .err er
  | .panicked => .panicked
  | .ok (beginchar, endchar) => load_abs st beginchar endchar

/-- `TextFile::get_or_load`: as `get`, but on a cache miss load the frame and
retry; returns the possibly-updated state together with the text. -/
def TextFile.get_or_load (st : TextFileState) (b e : Int) :
    RustResult (TextFileState × List Char) :=
  match absolute_pos st.positionindex.charsize b e with
  | .err er => .err er
  | .panicked => .panicked
  | .ok (beginchar, endchar) =>
    match chars_to_bytes st.positionindex beginchar with
    | .err er => .err er
    | .panicked => .panicked
    | .ok beginbyte =>
      match chars_to_bytes st.positionindex endchar with
      | .err er => .err er
      | .panicked => .panicked
      | .ok endbyte =>
        match framehandle st beginbyte endbyte with
        | some h =>
          match TextFile.resolve st h with
          | .err er => .err er
          | .panicked => .panicked
          | .ok f =>
            match frameSlice f beginbyte endbyte with
            | .err er => .err er
            | .panicked => .panicked
            | .ok txt => .ok (st, txt)
        | none =>
          match load_abs st beginchar endchar with
          | .err er => .err er
          | .panicked => .panicked
          | .ok st' =>
            match TextFile.get st' b e with
            | .err er => .err er
            | .panicked => .panicked
            | .ok txt => .ok (st', txt)

/-- Does the handle resolve to a frame that begins exactly at key `k`?  Part
of the frame-table well-formedness invariant. -/
def handleAtB (frames : List TextFrame) (k h : Nat) : Bool :=
  match frames.get? h with
  | some f => f.beginbyte == k
  | none => false

/-- Is frame number `i` registered in some bucket keyed by its begin byte? -/
def registeredB (st : TextFileState) (i : Nat) : Bool :=
  st.frametable.any (fun kv =>
    (match st.frames.get? i with
     | some f => kv.1 == f.beginbyte
     | none => false) && kv.2.contains i)

/-- Well-formedness of the frame cache: bucket keys strictly increase (it is a
`BTreeMap`), every registered handle resolves to a frame beginning at its
bucket key, and every frame is registered under its begin byte.  `load_frame`
establishes and preserves this; concrete reachable states discharge it by
evaluation. -/
def framesWF (st : TextFileState) : Prop :=
  List.Pairwise (fun a b => a.1 < b.1) st.frametable
  ∧ (∀ kv ∈ st.frametable, ∀ h ∈ kv.2, handleAtB st.frames kv.1 h = true)
  ∧ (∀ i ∈ List.range st.frames.length, registeredB st i = true)

instance (st : TextFileState) : Decidable (framesWF st) := by
  unfold framesWF; infer_instance

/-- Invariant of the character scan: after scanning `σ`, the counters hold the
totals, `prevcharsize` holds the width of the last character, and the
position table is exactly the strictly sorted table of run boundaries of `σ`
(start index, byte offset and byte width of each maximal run of characters
sharing one UTF-8 width). -/
def ScanInv (σ : List Char) (s : ScanCore) : Prop :=
  s.charpos = σ.length
  ∧ s.bytepos = byteLen σ
  ∧ s.prevcharsize = lastWidth σ
  ∧ List.Pairwise (fun p q => p.charpos < q.charpos) s.positions
  ∧ (∀ p ∈ s.positions,
      ∃ c, σ.get? p.charpos = some c ∧ p.size = c.utf8Size
        ∧ p.bytepos = byteLen (σ.take p.charpos))
  ∧ (∀ k, k < σ.length → (k = 0 ∨ widthAt σ k ≠ widthAt σ (k - 1)) →
      ∃ p ∈ s.positions, p.charpos = k)
  ∧ (∀ p ∈ s.positions, p.charpos = 0 ∨ widthAt σ p.charpos ≠ widthAt σ (p.charpos - 1))
  ∧ (∀ p ∈ s.positions, ∀ k, p.charpos ≤ k → k < σ.length →
      (∀ q ∈ s.positions, q.charpos ≤ k → q.charpos ≤ p.charpos) → widthAt σ k = p.size)

/-- Is `b` a UTF-8 continuation byte (`0x80..=0xBF`)? -/
def contOK (b : Nat) : Bool := 128 ≤ b && b < 192

/-- Decode one UTF-8 scalar from the front of a byte list, returning the
character and the remaining bytes; `none` on any malformed prefix (stray
continuation byte, overlong form, surrogate, out-of-range, truncation).  This
is the standard UTF-8 validation also performed by Rust's `str` machinery. -/
def decodeChar : List Nat → Option (Char × List Nat)
  | [] => none
  | b0 :: rest =>
    if b0 < 128 then some (Char.ofNat b0, rest)
    else if b0 < 194 then none
    else if b0 < 224 then
      match rest with
      | b1 :: rest' =>
        if contOK b1 then some (Char.ofNat ((b0 - 192) * 64 + (b1 - 128)), rest')
        else none
      | [] => none
    else if b0 < 240 then
      match rest with
      | b1 :: b2 :: rest' =>
        if contOK b1 && contOK b2 then
          let cp := (b0 - 224) * 4096 + (b1 - 128) * 64 + (b2 - 128)
          if 2048 ≤ cp ∧ ¬(55296 ≤ cp ∧ cp < 57344) then some (Char.ofNat cp, rest')
          else none
        else none
      | _ => none
    else if b0 < 245 then
      match rest with
      | b1 :: b2 :: b3 :: rest' =>
        if contOK b1 && contOK b2 && contOK b3 then
          let cp := (b0 - 240) * 262144 + (b1 - 128) * 4096 + (b2 - 128) * 64 + (b3 - 128)
          if 65536 ≤ cp ∧ cp < 1114112 then some (Char.ofNat cp, rest')
          else none
        else none
      | _ => none
    else none

/-- Fuelled UTF-8 decoding of a whole byte list (`decodeChar` consumes at
least one byte per step, so fuel equal to the length suffices; see
`decodeUtf8Go_fuel`). -/
def decodeUtf8Go : Nat → List Nat → Option (List Char)
  | _, [] => some []
  | 0, _ :: _ => none
  | fuel + 1, b0 :: rest =>
    match decodeChar (b0 :: rest) with
    | none => none
    | some (c, r) => (decodeUtf8Go fuel r).map (c :: ·)

/-- Decode a byte list as UTF-8; `none` exactly when it is not valid UTF-8. -/
def decodeUtf8 (l : List Nat) : Option (List Char) := decodeUtf8Go l.length l

/-- Split a byte list into the chunks returned by successive `read_line`
calls: each chunk ends with (and includes) the newline byte 10, except
possibly the last. -/
def splitBytesLines : List Nat → List (List Nat)
  | [] => []
  | b :: rest =>
    if b = 10 then [b] :: splitBytesLines rest
    else
      match splitBytesLines rest with
      | [] => [[b]]
      | l :: ls => (b :: l) :: ls

/-- The line loop of `PositionIndex::new` at byte level: each `read_line`
yields one chunk, which fails with an I/O error (`io::ErrorKind::InvalidData`,
wrapped by the source as `Error::IOError`) when the chunk is not valid UTF-8;
a valid chunk is processed by `scanLine`. -/
def buildIndexLines (mode : TextFileMode) : ScanState → List (List Nat) → RustResult ScanState
  | s, [] => .ok s
  | s, l :: ls =>
    match decodeUtf8 l with
    | none => .err .IOError
    | some cs => buildIndexLines mode (scanLine mode s cs) ls

/-- `PositionIndex::new` reading the raw bytes of the file (the form needed to
state what happens on invalid UTF-8 input). -/
def PositionIndex.new_bytes (bytes : List Nat) (mode : TextFileMode) : RustResult PositionIndex :=
  match buildIndexLines mode ⟨initCore, []⟩ (splitBytesLines bytes) with
  | .err er => .err er
  | .panicked => .panicked
  | .ok s =>
    .ok { charsize := s.core.charpos
          bytesize := s.core.bytepos
          positions := s.core.positions
          lines :=
            if mode = TextFileMode.WithLineIndex then s.lines ++ [s.core.bytepos]
            else s.lines }

/-! ## Helper lemmas: list search -/

theorem firstIdx_eq_some {p : PosEntry → Bool} :
    ∀ {ps : List PosEntry} {i : Nat}, firstIdx p ps = some i →
      ∃ q, ps.get? i = some q ∧ p q = true
        ∧ ∀ j r, j < i → ps.get? j = some r → p r = false := by
  intro ps
  induction ps with
  | nil => intro i h; simp [firstIdx] at h
  | cons x xs ih =>
    intro i h
    by_cases hx : p x
    · simp [firstIdx, hx] at h
      subst h
      exact ⟨x, rfl, hx, by omega⟩
    · simp [firstIdx, hx] at h
      obtain ⟨j, hj, rfl⟩ := h
      obtain ⟨q, hq, hpq, hmin⟩ := ih hj
      refine ⟨q, by simpa using hq, hpq, ?_⟩
      intro k r hk hkr
      cases k with
      | zero =>
        have hrx : x = r := by simpa using hkr
        subst hrx
        simpa using hx
      | succ k =>
        exact hmin k r (by omega) (by simpa using hkr)

theorem firstIdx_isSome {p : PosEntry → Bool} :
    ∀ {ps : List PosEntry} {i : Nat} {q : PosEntry},
      ps.get? i = some q → p q = true → (firstIdx p ps).isSome = true := by
  intro ps
  induction ps with
  | nil => intro i q hq _; simp at hq
  | cons x xs ih =>
    intro i q hq hp
    by_cases hx : p x
    · simp [firstIdx, hx]
    · cases i with
      | zero =>
        have hxq : x = q := by simpa using hq
        subst hxq
        exact absurd hp (by simpa using hx)
      | succ i =>
        have := ih (by simpa using hq) hp
        simpa [firstIdx, hx, Option.isSome_map] using this

theorem firstIdx_eq_none {p : PosEntry → Bool} :
    ∀ {ps : List PosEntry}, firstIdx p ps = none → ∀ q ∈ ps, p q = false := by
  intro ps
  induction ps with
  | nil => intro _ q hq; simp at hq
  | cons x xs ih =>
    intro h q hq
    by_cases hx : p x
    · simp [firstIdx, hx] at h
    · simp [firstIdx, hx] at h
      rcases List.mem_cons.mp hq with rfl | hmem
      · simpa using hx
      · exact ih h q hmem

theorem sorted_countP_lt {c : Nat} :
    ∀ {ps : List PosEntry},
      List.Pairwise (fun p q => p.charpos < q.charpos) ps →
      ∀ {j : Nat} {q : PosEntry}, ps.get? j = some q →
        (q.charpos < c ↔ j < ps.countP (fun p => decide (p.charpos < c))) := by
  intro ps
  induction ps with
  | nil => intro _ j q hq; simp at hq
  | cons x xs ih =>
    intro hs j q hq
    have hx : ∀ y ∈ xs, x.charpos < y.charpos := (List.pairwise_cons.mp hs).1
    have hs' := (List.pairwise_cons.mp hs).2
    cases j with
    | zero =>
      have hxq : x = q := by simpa using hq
      subst hxq
      by_cases hxc : x.charpos < c
      · rw [List.countP_cons_of_pos _ _ (by simpa using hxc)]
        exact ⟨fun _ => by omega, fun _ => hxc⟩
      · rw [List.countP_cons_of_neg _ _ (by simpa using hxc)]
        have hzero : xs.countP (fun p => decide (p.charpos < c)) = 0 := by
          rw [List.countP_eq_zero]
          intro y hy
          have := hx y hy
          show ¬ (decide (y.charpos < c) = true)
          simp only [decide_eq_true_eq]
          omega
        simp [hxc, hzero]
    | succ j =>
      have hq' : xs.get? j = some q := by simpa using hq
      by_cases hxc : x.charpos < c
      · rw [List.countP_cons_of_pos _ _ (by simpa using hxc), ih hs' hq']
        omega
      · have hmem : q ∈ xs := List.get?_mem hq'
        rw [List.countP_cons_of_neg _ _ (by simpa using hxc)]
        have hzero : xs.countP (fun p => decide (p.charpos < c)) = 0 := by
          rw [List.countP_eq_zero]
          intro y hy
          have := hx y hy
          show ¬ (decide (y.charpos < c) = true)
          simp only [decide_eq_true_eq]
          omega
        have hnq : ¬ q.charpos < c := by
          have := hx q hmem
          omega
        simp [hzero, hnq]

/-! ## Helper lemmas: byte lengths and widths -/

theorem byteLen_nil : byteLen [] = 0 := rfl

theorem byteLen_cons (c : Char) (σ : List Char) :
    byteLen (c :: σ) = c.utf8Size + byteLen σ := by
  simp [byteLen]

theorem byteLen_append (σ τ : List Char) : byteLen (σ ++ τ) = byteLen σ + byteLen τ := by
  simp [byteLen]

theorem widthAt_pos {σ : List Char} {k : Nat} (h : k < σ.length) : 0 < widthAt σ k := by
  have hc : σ.get? k = some (σ.get ⟨k, h⟩) := List.get?_eq_get h
  simp only [widthAt, hc]
  exact Char.utf8Size_pos _

theorem widthAt_append_lt {σ τ : List Char} {k : Nat} (h : k < σ.length) :
    widthAt (σ ++ τ) k = widthAt σ k := by
  simp only [widthAt, List.get?_append h]

theorem widthAt_concat_length (σ : List Char) (c : Char) :
    widthAt (σ ++ [c]) σ.length = c.utf8Size := by
  simp only [widthAt, List.get?_concat_length]

theorem lastWidth_concat (σ : List Char) (c : Char) : lastWidth (σ ++ [c]) = c.utf8Size := by
  simp [lastWidth, List.getLast?_concat]

theorem lastWidth_eq_widthAt {σ : List Char} (h : σ ≠ []) :
    lastWidth σ = widthAt σ (σ.length - 1) := by
  rcases List.eq_nil_or_concat σ with rfl | ⟨τ, c, rfl⟩
  · exact absurd rfl h
  · rw [List.concat_eq_append, lastWidth_concat]
    have hl : (τ ++ [c]).length - 1 = τ.length := by simp
    rw [hl, widthAt_concat_length]

theorem byteLen_take_succ {σ : List Char} {k : Nat} (h : k < σ.length) :
    byteLen (σ.take (k + 1)) = byteLen (σ.take k) + widthAt σ k := by
  have hc : σ.get? k = some (σ.get ⟨k, h⟩) := List.get?_eq_get h
  have hg : σ[k]? = some (σ.get ⟨k, h⟩) := by
    rw [← List.get?_eq_getElem?]
    exact hc
  rw [List.take_succ, hg]
  simp only [widthAt, hc, Option.toList_some, byteLen_append]
  simp [byteLen]

theorem byteLen_take_le (σ : List Char) (c : Nat) : byteLen (σ.take c) ≤ byteLen σ := by
  conv_rhs => rw [← List.take_append_drop c σ]
  rw [byteLen_append]
  omega

theorem byteLen_take_mono {σ : List Char} {c c' : Nat} (h : c ≤ c') :
    byteLen (σ.take c) ≤ byteLen (σ.take c') := by
  have heq : σ.take c = (σ.take c').take c := by
    rw [List.take_take, Nat.min_eq_left h]
  rw [heq]
  exact byteLen_take_le _ _

theorem byteLen_take_length (σ : List Char) : byteLen (σ.take σ.length) = byteLen σ := by
  rw [List.take_length]

theorem takeBytes_byteLen : ∀ σ : List Char, takeBytes σ (byteLen σ) = some σ := by
  intro σ
  induction σ with
  | nil => rfl
  | cons c σ ih =>
    have hw := Char.utf8Size_pos c
    rw [byteLen_cons]
    obtain ⟨m, hm⟩ : ∃ m, c.utf8Size + byteLen σ = m + 1 :=
      ⟨c.utf8Size + byteLen σ - 1, by omega⟩
    rw [hm]
    have hle : c.utf8Size ≤ m + 1 := by omega
    have hsub : m + 1 - c.utf8Size = byteLen σ := by omega
    simp [takeBytes, hle, hsub, ih]

theorem byteSliceChars_full (σ : List Char) : byteSliceChars σ 0 (byteLen σ) = some σ := by
  simp [byteSliceChars, dropBytes, takeBytes_byteLen]

/-! ## Helper lemmas: line splitting and the scan projections -/

theorem splitLinesC_flatten : ∀ σ : List Char, (splitLinesC σ).flatten = σ := by
  intro σ
  induction σ with
  | nil => rfl
  | cons c σ ih =>
    by_cases hc : c = '\n'
    · simp [splitLinesC, hc, ih]
    · rw [splitLinesC]
      simp only [if_neg hc]
      cases hsp : splitLinesC σ with
      | nil => simpa [hsp] using ih
      | cons l ls =>
        rw [hsp] at ih
        simpa using ih

theorem scanLines_core (mode : TextFileMode) :
    ∀ (lss : List (List Char)) (s : ScanState),
      (scanLines mode s lss).core = (lss.flatten).foldl scanChar s.core := by
  intro lss
  induction lss with
  | nil => intro s; rfl
  | cons l ls ih =>
    intro s
    have h1 : scanLines mode s (l :: ls) = scanLines mode (scanLine mode s l) ls := rfl
    rw [h1, ih (scanLine mode s l)]
    simp [scanLine, List.foldl_append]

theorem new_positions (σ : List Char) (mode : TextFileMode) :
    (PositionIndex.new σ mode).positions = (scanChars σ).positions := by
  simp [PositionIndex.new, scanLines_core, splitLinesC_flatten, scanChars]

theorem new_charsize (σ : List Char) (mode : TextFileMode) :
    (PositionIndex.new σ mode).charsize = (scanChars σ).charpos := by
  simp [PositionIndex.new, scanLines_core, splitLinesC_flatten, scanChars]

theorem new_bytesize (σ : List Char) (mode : TextFileMode) :
    (PositionIndex.new σ mode).bytesize = (scanChars σ).bytepos := by
  simp [PositionIndex.new, scanLines_core, splitLinesC_flatten, scanChars]

theorem scanChars_concat (σ : List Char) (c : Char) :
    scanChars (σ ++ [c]) = scanChar (scanChars σ) c := by
  simp [scanChars, List.foldl_append]

/-! ## The scan invariant -/

theorem scanChar_inv {σ : List Char} {s : ScanCore} (hinv : ScanInv σ s) (c : Char) :
    ScanInv (σ ++ [c]) (scanChar s c) := by
  obtain ⟨h1, h2, h3, h4, h5, h6, h7, h8⟩ := hinv
  have hw : 0 < c.utf8Size := Char.utf8Size_pos c
  have hlt : ∀ p ∈ s.positions, p.charpos < σ.length := by
    intro p hp
    obtain ⟨d, hd, _, _⟩ := h5 p hp
    obtain ⟨hb, _⟩ := List.get?_eq_some.mp hd
    exact hb
  by_cases hcw : c.utf8Size = s.prevcharsize
  case pos =>
    have hposs : (scanChar s c).positions = s.positions := by
      simp [scanChar, hcw]
    have hne : σ ≠ [] := by
      intro h
      subst h
      simp [lastWidth] at h3
      omega
    have hlen1 : 0 < σ.length := List.length_pos.mpr hne
    have hlast : widthAt σ (σ.length - 1) = c.utf8Size := by
      rw [← lastWidth_eq_widthAt hne, ← h3]
      exact hcw.symm
    refine ⟨?_, ?_, ?_, ?_, ?_, ?_, ?_, ?_⟩
    · show s.charpos + 1 = (σ ++ [c]).length
      simp [h1]
    · show s.bytepos + c.utf8Size = byteLen (σ ++ [c])
      rw [byteLen_append, h2]
      simp [byteLen]
    · show c.utf8Size = lastWidth (σ ++ [c])
      rw [lastWidth_concat]
    · rw [hposs]
      exact h4
    · rw [hposs]
      intro p hp
      obtain ⟨d, hd, hsz, hbp⟩ := h5 p hp
      have hplt := hlt p hp
      refine ⟨d, ?_, hsz, ?_⟩
      · rw [List.get?_append hplt]
        exact hd
      · rw [List.take_append_of_le_length (by omega)]
        exact hbp
    · intro k hk hbd
      rw [hposs]
      rcases Nat.lt_or_ge k σ.length with hk' | hk'
      · apply h6 k hk'
        rcases hbd with h0 | hne'
        · exact Or.inl h0
        · right
          rw [widthAt_append_lt hk', widthAt_append_lt (by omega)] at hne'
          exact hne'
      · exfalso
        have hkn : k = σ.length := by
          simp at hk
          omega
        subst hkn
        rcases hbd with h0 | hne'
        · omega
        · apply hne'
          rw [widthAt_concat_length, widthAt_append_lt (by omega)]
          exact hlast.symm
    · rw [hposs]
      intro p hp
      have hplt := hlt p hp
      rcases h7 p hp with h0 | hne'
      · exact Or.inl h0
      · right
        rw [widthAt_append_lt hplt, widthAt_append_lt (by omega)]
        exact hne'
    · rw [hposs]
      intro p hp k hpk hk hmax
      rcases Nat.lt_or_ge k σ.length with hk' | hk'
      · rw [widthAt_append_lt hk']
        exact h8 p hp k hpk hk' hmax
      · have hkn : k = σ.length := by
          simp at hk
          omega
        subst hkn
        rw [widthAt_concat_length]
        have hmax' : ∀ q ∈ s.positions, q.charpos ≤ p.charpos := by
          intro q hq
          exact hmax q hq (by have := hlt q hq; omega)
        have hp1 : p.charpos ≤ σ.length - 1 := by
          have := hlt p hp
          omega
        have hrun := h8 p hp (σ.length - 1) hp1 (by omega) (fun q hq _ => hmax' q hq)
        rw [hlast] at hrun
        exact hrun
  case neg =>
    have hposs : (scanChar s c).positions
        = s.positions ++ [⟨s.charpos, s.bytepos, c.utf8Size⟩] := by
      simp [scanChar, hcw]
    refine ⟨?_, ?_, ?_, ?_, ?_, ?_, ?_, ?_⟩
    · show s.charpos + 1 = (σ ++ [c]).length
      simp [h1]
    · show s.bytepos + c.utf8Size = byteLen (σ ++ [c])
      rw [byteLen_append, h2]
      simp [byteLen]
    · show c.utf8Size = lastWidth (σ ++ [c])
      rw [lastWidth_concat]
    · rw [hposs, List.pairwise_append]
      refine ⟨h4, List.pairwise_singleton _ _, ?_⟩
      intro a ha b hb
      have halt := hlt a ha
      simp at hb
      subst hb
      show a.charpos < s.charpos
      omega
    · rw [hposs]
      intro p hp
      rcases List.mem_append.mp hp with hold | hnew
      · obtain ⟨d, hd, hsz, hbp⟩ := h5 p hold
        have hplt := hlt p hold
        refine ⟨d, ?_, hsz, ?_⟩
        · rw [List.get?_append hplt]
          exact hd
        · rw [List.take_append_of_le_length (by omega)]
          exact hbp
      · simp at hnew
        subst hnew
        refine ⟨c, ?_, rfl, ?_⟩
        · show (σ ++ [c]).get? s.charpos = some c
          rw [h1]
          exact List.get?_concat_length σ c
        · show s.bytepos = byteLen ((σ ++ [c]).take s.charpos)
          rw [h1, List.take_append_of_le_length (le_refl _), List.take_length]
          exact h2
    · intro k hk hbd
      rw [hposs]
      rcases Nat.lt_or_ge k σ.length with hk' | hk'
      · rcases hbd with h0 | hne'
        · obtain ⟨p, hp, hpc⟩ := h6 k hk' (Or.inl h0)
          exact ⟨p, List.mem_append_left _ hp, hpc⟩
        · rw [widthAt_append_lt hk', widthAt_append_lt (by omega)] at hne'
          obtain ⟨p, hp, hpc⟩ := h6 k hk' (Or.inr hne')
          exact ⟨p, List.mem_append_left _ hp, hpc⟩
      · have hkn : k = σ.length := by
          simp at hk
          omega
        subst hkn
        refine ⟨⟨s.charpos, s.bytepos, c.utf8Size⟩, List.mem_append_right _ (by simp), ?_⟩
        exact h1
    · rw [hposs]
      intro p hp
      rcases List.mem_append.mp hp with hold | hnew
      · have hplt := hlt p hold
        rcases h7 p hold with h0 | hne'
        · exact Or.inl h0
        · right
          rw [widthAt_append_lt hplt, widthAt_append_lt (by omega)]
          exact hne'
      · simp at hnew
        subst hnew
        show s.charpos = 0 ∨ widthAt (σ ++ [c]) s.charpos ≠ widthAt (σ ++ [c]) (s.charpos - 1)
        rcases Nat.eq_zero_or_pos σ.length with hz | hpos'
        · left
          omega
        · right
          have hne : σ ≠ [] := by
            intro hh
            subst hh
            simp at hpos'
          rw [h1, widthAt_concat_length, widthAt_append_lt (by omega)]
          rw [← lastWidth_eq_widthAt hne, ← h3]
          exact hcw
    · rw [hposs]
      intro p hp k hpk hk hmax
      rcases List.mem_append.mp hp with hold | hnew
      · have hplt := hlt p hold
        rcases Nat.lt_or_ge k σ.length with hk' | hk'
        · rw [widthAt_append_lt hk']
          apply h8 p hold k hpk hk'
          intro q hq hqk
          exact hmax q (List.mem_append_left _ hq) hqk
        · exfalso
          have hkn : k = σ.length := by
            simp at hk
            omega
          subst hkn
          have hq1 := hmax ⟨s.charpos, s.bytepos, c.utf8Size⟩
            (List.mem_append_right _ (by simp)) (by show s.charpos ≤ σ.length; omega)
          have hq2 : s.charpos ≤ p.charpos := hq1
          omega
      · simp at hnew
        subst hnew
        have hpk' : s.charpos ≤ k := hpk
        have hkn : k = σ.length := by
          simp at hk
          omega
        subst hkn
        rw [widthAt_concat_length]

theorem scanChars_inv (σ : List Char) : ScanInv σ (scanChars σ) := by
  induction σ using List.reverseRecOn with
  | nil =>
    refine ⟨rfl, rfl, rfl, List.Pairwise.nil, ?_, ?_, ?_, ?_⟩
    · intro p hp
      simp [scanChars, initCore] at hp
    · intro k hk
      simp at hk
    · intro p hp
      simp [scanChars, initCore] at hp
    · intro p hp
      simp [scanChars, initCore] at hp
  | append_singleton σ c ih =>
    rw [scanChars_concat]
    exact scanChar_inv ih c

/-! ## chars_to_bytes on a scanned index -/

theorem scan_interp (σ : List Char) {p : PosEntry}
    (hp : p ∈ (scanChars σ).positions) :
    ∀ n : Nat, p.charpos + n ≤ σ.length →
      (∀ q ∈ (scanChars σ).positions, q.charpos < p.charpos + n → q.charpos ≤ p.charpos) →
      byteLen (σ.take (p.charpos + n)) = p.bytepos + p.size * n := by
  obtain ⟨h1, h2, h3, h4, h5, h6, h7, h8⟩ := scanChars_inv σ
  intro n
  induction n with
  | zero =>
    intro _ _
    obtain ⟨d, hd, hsz, hbp⟩ := h5 p hp
    simpa using hbp.symm
  | succ n ih =>
    intro hle hmax
    have hlt : p.charpos + n < σ.length := by omega
    have hstep : byteLen (σ.take (p.charpos + n + 1))
        = byteLen (σ.take (p.charpos + n)) + widthAt σ (p.charpos + n) :=
      byteLen_take_succ hlt
    have hwid : widthAt σ (p.charpos + n) = p.size := by
      apply h8 p hp (p.charpos + n) (by omega) hlt
      intro q hq hqk
      exact hmax q hq (by omega)
    have hprev := ih (by omega) (fun q hq hqk => hmax q hq (by omega))
    show byteLen (σ.take (p.charpos + n + 1)) = p.bytepos + p.size * (n + 1)
    rw [hstep, hwid, hprev]
    ring

theorem c2bAt_found {idx : PositionIndex} {cp i : Nat} {p : PosEntry}
    (hget : idx.positions.get? i = some p) :
    c2bAt idx cp (.found i) = .ok p.bytepos := by
  simp only [c2bAt, hget]

theorem c2bAt_missed_succ {idx : PositionIndex} {cp i : Nat} {p : PosEntry}
    (hget : idx.positions.get? i = some p) :
    c2bAt idx cp (.missed (i + 1)) =
      (if p.bytepos + p.size * (cp - p.charpos) > idx.bytesize then
        .err (.OutOfBoundsError ((p.bytepos + p.size * (cp - p.charpos) : Nat) : Int) 0)
      else .ok (p.bytepos + p.size * (cp - p.charpos))) := by
  simp only [c2bAt, hget]

theorem chars_to_bytes_inv {σ : List Char} {idx : PositionIndex}
    (hpos : idx.positions = (scanChars σ).positions)
    (hbs : idx.bytesize = byteLen σ)
    (hne : σ ≠ []) {c : Nat} (hc : c ≤ σ.length) :
    chars_to_bytes idx c = .ok (byteLen (σ.take c)) := by
  obtain ⟨h1, h2, h3, h4, h5, h6, h7, h8⟩ := scanChars_inv σ
  have hlen1 : 0 < σ.length := List.length_pos.mpr hne
  cases hfi : firstIdx (fun p => p.charpos == c) (scanChars σ).positions with
  | some i =>
    obtain ⟨q, hq, hpq, _⟩ := firstIdx_eq_some hfi
    have hqc : q.charpos = c := by simpa using hpq
    have hbsr : bsearch idx.positions c = .found i := by
      simp [bsearch, hpos, hfi]
    obtain ⟨d, hd, hsz, hbp⟩ := h5 q (List.get?_mem hq)
    rw [chars_to_bytes, hbsr, c2bAt_found (by rw [hpos]; exact hq)]
    rw [hbp, hqc]
  | none =>
    have hnone := firstIdx_eq_none hfi
    obtain ⟨p0, hp0, hp0c⟩ := h6 0 hlen1 (Or.inl rfl)
    have hne0 : ∀ q ∈ (scanChars σ).positions, q.charpos ≠ c := by
      intro q hq
      have := hnone q hq
      simpa using this
    have hc0 : 0 < c := by
      rcases Nat.eq_zero_or_pos c with rfl | h
      · exact absurd hp0c (hne0 p0 hp0)
      · exact h
    obtain ⟨j0, hj0⟩ := List.mem_iff_get?.mp hp0
    have hcnt0 : 0 <
        (scanChars σ).positions.countP (fun p => decide (p.charpos < c)) := by
      have hlt0 : p0.charpos < c := by omega
      have := (sorted_countP_lt h4 hj0).mp hlt0
      omega
    have hilen : (scanChars σ).positions.countP (fun p => decide (p.charpos < c))
        ≤ (scanChars σ).positions.length := List.countP_le_length _
    obtain ⟨p, hpget⟩ : ∃ p, (scanChars σ).positions.get?
        ((scanChars σ).positions.countP (fun p => decide (p.charpos < c)) - 1) = some p := by
      have hb : (scanChars σ).positions.countP (fun p => decide (p.charpos < c)) - 1
          < (scanChars σ).positions.length := by omega
      exact ⟨_, List.get?_eq_get hb⟩
    have hplt : p.charpos < c := (sorted_countP_lt h4 hpget).mpr (by omega)
    have hmax : ∀ q ∈ (scanChars σ).positions, q.charpos < c → q.charpos ≤ p.charpos := by
      intro q hq hqc
      obtain ⟨j, hj⟩ := List.mem_iff_get?.mp hq
      have hjc : j < (scanChars σ).positions.countP (fun p => decide (p.charpos < c)) :=
        (sorted_countP_lt h4 hj).mp hqc
      obtain ⟨hjb, hjq⟩ := List.get?_eq_some.mp hj
      obtain ⟨hib, hiq⟩ := List.get?_eq_some.mp hpget
      rcases Nat.lt_or_ge j
        ((scanChars σ).positions.countP (fun p => decide (p.charpos < c)) - 1) with hji | hji
      · have hrel := List.pairwise_iff_get.mp h4 ⟨j, hjb⟩ ⟨_, hib⟩ (by simpa using hji)
        rw [hjq, hiq] at hrel
        omega
      · have hje : j = (scanChars σ).positions.countP (fun p => decide (p.charpos < c)) - 1 := by
          omega
        subst hje
        rw [hj] at hpget
        cases hpget
        exact le_refl _
    have hmem := List.get?_mem hpget
    have hinterp := scan_interp σ hmem (c - p.charpos) (by omega)
      (fun q hq hqk => hmax q hq (by omega))
    have hpc : p.charpos + (c - p.charpos) = c := by omega
    rw [hpc] at hinterp
    have hcc : (scanChars σ).positions.countP (fun p => decide (p.charpos < c))
        = ((scanChars σ).positions.countP (fun p => decide (p.charpos < c)) - 1) + 1 := by
      omega
    have hbsr : bsearch idx.positions c = .missed
        (((scanChars σ).positions.countP (fun p => decide (p.charpos < c)) - 1) + 1) := by
      simp only [bsearch, hpos, hfi]
      rw [← hcc]
    have hlesz : byteLen (σ.take c) ≤ byteLen σ := byteLen_take_le σ c
    rw [chars_to_bytes, hbsr, c2bAt_missed_succ (by rw [hpos]; exact hpget)]
    rw [if_neg (by rw [hbs]; omega)]
    rw [← hinterp]

theorem new_charsize_eq (σ : List Char) (mode : TextFileMode) :
    (PositionIndex.new σ mode).charsize = σ.length := by
  rw [new_charsize]
  exact (scanChars_inv σ).1

theorem new_bytesize_eq (σ : List Char) (mode : TextFileMode) :
    (PositionIndex.new σ mode).bytesize = byteLen σ := by
  rw [new_bytesize]
  exact (scanChars_inv σ).2.1

theorem chars_to_bytes_new (σ : List Char) (mode : TextFileMode) (hne : σ ≠ [])
    {c : Nat} (hc : c ≤ σ.length) :
    chars_to_bytes (PositionIndex.new σ mode) c = .ok (byteLen (σ.take c)) :=
  chars_to_bytes_inv (new_positions σ mode) (new_bytesize_eq σ mode) hne hc

/-! ## Claim C1 -/

/-- Claim C1 (code-bug evidence): for `(begin, end)` pairs covered by none of
the four addressing modes — here `begin = end = 1`, and `begin = 0` with
`end ≤ 0` and `|end| > charsize` — `absolute_pos` reaches the source's
`unreachable!` branch and aborts the program instead of returning the
explicit `OutOfBounds` error the specification requires. -/
theorem absolute_pos_uncovered_panics (charsize : Nat) :
    absolute_pos charsize 1 1 = .panicked
      ∧ absolute_pos charsize 0 (-(charsize : Int) - 1) = .panicked := by
  constructor
  · unfold absolute_pos
    rw [if_neg (by omega), if_neg (by omega), if_neg (by omega), if_neg (by omega)]
  · unfold absolute_pos
    rw [if_neg (by omega), if_neg (by omega), if_neg (by omega), if_neg (by omega)]

/-! ## Claim C9 -/

/-- Claim C9: the storage width for position entries and (independently) line
entries is selected from the file byte size alone: below 2^16 bytes the
16-bit variant, below 2^32 bytes the 32-bit variant, and all larger files the
64-bit variant. -/
theorem storage_width_selection (filesize : Nat) :
    (filesize < 2 ^ 16 →
      Positions.new filesize = .Small [] ∧ Lines.new filesize = .Small [])
    ∧ (2 ^ 16 ≤ filesize → filesize < 2 ^ 32 →
      Positions.new filesize = .Large [] ∧ Lines.new filesize = .Large [])
    ∧ (2 ^ 32 ≤ filesize →
      Positions.new filesize = .Huge [] ∧ Lines.new filesize = .Huge []) := by
  refine ⟨?_, ?_, ?_⟩
  · intro h
    have h' : filesize < 65536 := by omega
    constructor <;> simp [Positions.new, Lines.new, h']
  · intro h1 h2
    have h1' : ¬ filesize < 65536 := by omega
    have h2' : filesize < 4294967296 := by omega
    constructor <;> simp [Positions.new, Lines.new, h1', h2']
  · intro h
    have h1' : ¬ filesize < 65536 := by omega
    have h2' : ¬ filesize < 4294967296 := by omega
    constructor <;> simp [Positions.new, Lines.new, h1', h2']

/-- Spot check of C9 at concrete sizes in each of the three ranges. -/
theorem storage_width_selection_spot :
    Positions.new 1000 = .Small [] ∧ Lines.new 70000 = .Large []
      ∧ Positions.new 5000000000 = .Huge [] :=
  ⟨((storage_width_selection 1000).1 (by norm_num)).1,
   ((storage_width_selection 70000).2.1 (by norm_num) (by norm_num)).2,
   ((storage_width_selection 5000000000).2.2 (by norm_num)).1⟩

/-! ## Claim C3 -/

/-- Claim C3: on a table sorted by `charpos`, if `c` matches the entry at
index `i` then `chars_to_bytes` returns `positions[i].bytepos`; a binary
search miss with insertion point 0 fails with `EmptyText`; a miss with
insertion point `i > 0` returns
`positions[i-1].bytepos + positions[i-1].size * (c - positions[i-1].charpos)`,
failing with `OutOfBounds` exactly when that value exceeds `bytesize`. -/
theorem chars_to_bytes_cases (idx : PositionIndex)
    (hs : List.Pairwise (fun p q => p.charpos < q.charpos) idx.positions) (c : Nat) :
    (∀ i p, idx.positions.get? i = some p → p.charpos = c →
      chars_to_bytes idx c = .ok p.bytepos)
    ∧ (bsearch idx.positions c = .missed 0 → chars_to_bytes idx c = .err .EmptyText)
    ∧ (∀ i p, bsearch idx.positions c = .missed (i + 1) →
      idx.positions.get? i = some p →
      chars_to_bytes idx c =
        (if p.bytepos + p.size * (c - p.charpos) > idx.bytesize then
          .err (.OutOfBoundsError ((p.bytepos + p.size * (c - p.charpos) : Nat) : Int) 0)
        else .ok (p.bytepos + p.size * (c - p.charpos)))) := by
  refine ⟨?_, ?_, ?_⟩
  · intro i p hget hpc
    have hsome := @firstIdx_isSome (fun q => q.charpos == c) idx.positions i p hget
      (by simp [hpc])
    obtain ⟨j, hfi⟩ := Option.isSome_iff_exists.mp hsome
    obtain ⟨q, hq, hpq, hmin⟩ := firstIdx_eq_some hfi
    have hqc : q.charpos = c := by simpa using hpq
    have hij : j = i := by
      rcases Nat.lt_trichotomy j i with hlt | heq | hgt
      · obtain ⟨hjb, hjq⟩ := List.get?_eq_some.mp hq
        obtain ⟨hib, hiq⟩ := List.get?_eq_some.mp hget
        have hrel := List.pairwise_iff_get.mp hs ⟨j, hjb⟩ ⟨i, hib⟩ (by simpa using hlt)
        rw [hjq, hiq] at hrel
        omega
      · exact heq
      · have := hmin i p hgt hget
        rw [hpc] at this
        simp at this
    subst hij
    rw [hq] at hget
    cases hget
    have hbsr : bsearch idx.positions c = .found j := by
      simp [bsearch, hfi]
    rw [chars_to_bytes, hbsr, c2bAt_found hq]
  · intro h
    rw [chars_to_bytes, h]
    rfl
  · intro i p hb hget
    rw [chars_to_bytes, hb, c2bAt_missed_succ hget]

/-- Spot check of C3: exact hit, empty-table miss, and interpolated miss on
concrete tables. -/
theorem chars_to_bytes_cases_spot :
    chars_to_bytes ⟨4, 6, [⟨0, 0, 1⟩, ⟨2, 2, 2⟩], []⟩ 2 = .ok 2
    ∧ chars_to_bytes ⟨0, 0, [], []⟩ 0 = .err .EmptyText
    ∧ chars_to_bytes ⟨4, 6, [⟨0, 0, 1⟩, ⟨2, 2, 2⟩], []⟩ 3 = .ok 4 := by
  refine ⟨?_, ?_, ?_⟩
  · exact (chars_to_bytes_cases ⟨4, 6, [⟨0, 0, 1⟩, ⟨2, 2, 2⟩], []⟩ (by decide) 2).1
      1 ⟨2, 2, 2⟩ (by decide) rfl
  · exact (chars_to_bytes_cases ⟨0, 0, [], []⟩ (by decide) 0).2.1 (by decide)
  · have h := (chars_to_bytes_cases ⟨4, 6, [⟨0, 0, 1⟩, ⟨2, 2, 2⟩], []⟩ (by decide) 3).2.2
      1 ⟨2, 2, 2⟩ (by decide) (by decide)
    rw [h]
    decide

/-! ## Claim C4 -/

/-- Claim C4 counterexample: the claim fails on the empty file — `c = 0`
satisfies `0 ≤ c ≤ charsize`, yet `chars_to_bytes` does not succeed: it
fails with `EmptyText`. -/
theorem chars_to_bytes_empty_file_fails :
    chars_to_bytes (PositionIndex.new [] .WithLineIndex) 0 = .err .EmptyText := by
  decide

/-- Claim C4 (amended to non-empty files): for every non-empty file and every
`c ≤ charsize`, `chars_to_bytes` succeeds (returning the byte length of the
first `c` characters), `chars_to_bytes charsize = bytesize`, and the returned
values are monotonically non-decreasing in `c`. -/
theorem chars_to_bytes_total_monotone (σ : List Char) (mode : TextFileMode) (hne : σ ≠ []) :
    (∀ c, c ≤ (PositionIndex.new σ mode).charsize →
      chars_to_bytes (PositionIndex.new σ mode) c = .ok (byteLen (σ.take c)))
    ∧ chars_to_bytes (PositionIndex.new σ mode) (PositionIndex.new σ mode).charsize
        = .ok (PositionIndex.new σ mode).bytesize
    ∧ (∀ c c' b b', c ≤ c' → c' ≤ (PositionIndex.new σ mode).charsize →
      chars_to_bytes (PositionIndex.new σ mode) c = .ok b →
      chars_to_bytes (PositionIndex.new σ mode) c' = .ok b' → b ≤ b') := by
  have hcs := new_charsize_eq σ mode
  have hbs := new_bytesize_eq σ mode
  refine ⟨?_, ?_, ?_⟩
  · intro c hc
    exact chars_to_bytes_new σ mode hne (by omega)
  · rw [chars_to_bytes_new σ mode hne (by omega), hcs, List.take_length, hbs]
  · intro c c' b b' hcc hc' h1 h2
    rw [chars_to_bytes_new σ mode hne (by omega)] at h1
    rw [chars_to_bytes_new σ mode hne (by omega)] at h2
    cases h1
    cases h2
    exact byteLen_take_mono hcc

/-- Spot check of C4 on a concrete two-character file. -/
theorem chars_to_bytes_total_monotone_spot :
    chars_to_bytes (PositionIndex.new ['a', 'b'] .WithLineIndex) 2 = .ok 2 := by
  have h := (chars_to_bytes_total_monotone ['a', 'b'] .WithLineIndex (by decide)).1 2 (by decide)
  exact h.trans (by decide)

/-! ## Claim C7 -/

/-- Claim C7: `line_to_bytes` fails with `NoLineIndex` whenever the line table
is empty; on a non-empty table, the line index equal to the table length
returns `bytesize`, a negative line `-k` with `k ≤` length resolves exactly
like `length - k`, and any line whose magnitude lies beyond the table fails
with `OutOfBounds`. -/
theorem line_to_bytes_spec (idx : PositionIndex) :
    (∀ line : Int, idx.lines.length = 0 → line_to_bytes idx line = .err .NoLineIndex)
    ∧ (idx.lines.length ≠ 0 →
      line_to_bytes idx (idx.lines.length : Int) = .ok idx.bytesize)
    ∧ (∀ k : Nat, 1 ≤ k → k ≤ idx.lines.length →
      line_to_bytes idx (-(k : Int)) = line_to_bytes idx ((idx.lines.length - k : Nat) : Int))
    ∧ (∀ line : Int, idx.lines.length ≠ 0 → (idx.lines.length : Int) < line →
      line_to_bytes idx line = .err (.OutOfBoundsError line 0))
    ∧ (∀ line : Int, idx.lines.length ≠ 0 → line < -(idx.lines.length : Int) →
      line_to_bytes idx line = .err (.OutOfBoundsError line 0)) := by
  refine ⟨?_, ?_, ?_, ?_, ?_⟩
  · intro line h
    rw [line_to_bytes, if_pos h]
  · intro h
    rw [line_to_bytes, if_neg h, if_neg (by omega), if_pos (by omega)]
  · intro k h1 h2
    have hne : ¬ idx.lines.length = 0 := by omega
    rw [line_to_bytes, if_neg hne, if_pos (by omega), if_neg (by omega)]
    have harg : (idx.lines.length : Int) - ((-(k : Int)).natAbs : Int)
        = ((idx.lines.length - k : Nat) : Int) := by omega
    rw [harg]
  · intro line hne hgt
    rw [line_to_bytes, if_neg hne, if_neg (by omega), if_neg (by omega)]
    have hnone : idx.lines.get? line.toNat = none := by
      rw [List.get?_eq_none]
      omega
    rw [hnone]
  · intro line hne hlt
    rw [line_to_bytes, if_neg hne, if_pos (by omega), if_pos (by omega)]

/-- Spot check of C7 on a concrete two-line table. -/
theorem line_to_bytes_spec_spot :
    line_to_bytes ⟨9, 9, [], []⟩ 0 = .err .NoLineIndex
    ∧ line_to_bytes ⟨9, 9, [], [0, 5]⟩ 2 = .ok 9
    ∧ line_to_bytes ⟨9, 9, [], [0, 5]⟩ (-1) = line_to_bytes ⟨9, 9, [], [0, 5]⟩ 1
    ∧ line_to_bytes ⟨9, 9, [], [0, 5]⟩ 3 = .err (.OutOfBoundsError 3 0)
    ∧ line_to_bytes ⟨9, 9, [], [0, 5]⟩ (-3) = .err (.OutOfBoundsError (-3) 0) := by
  refine ⟨?_, ?_, ?_, ?_, ?_⟩
  · exact (line_to_bytes_spec ⟨9, 9, [], []⟩).1 0 rfl
  · exact (line_to_bytes_spec ⟨9, 9, [], [0, 5]⟩).2.1 (by decide)
  · exact (line_to_bytes_spec ⟨9, 9, [], [0, 5]⟩).2.2.1 1 (by decide) (by decide)
  · exact (line_to_bytes_spec ⟨9, 9, [], [0, 5]⟩).2.2.2.1 3 (by decide) (by decide)
  · exact (line_to_bytes_spec ⟨9, 9, [], [0, 5]⟩).2.2.2.2 (-3) (by decide) (by decide)

/-! ## Claim C10 -/

/-- Claim C10 counterexample: on the empty file it is not true that every
character-addressed read fails with `EmptyText` — `get(1, 1)` reaches the
`unreachable!` branch of offset normalization and aborts before any
conversion happens. -/
theorem get_empty_file_uncovered_pair_panics :
    TextFile.get (TextFile.new [] .WithLineIndex) 1 1 = .panicked := by
  decide

/-- Claim C10 (amended to the reads whose offset pair passes normalization):
on the empty file `chars_to_bytes` fails with `EmptyText` for every character
offset (the position table is empty), and consequently every `get` or
`get_or_load` whose offsets are accepted by `absolute_pos` — in particular
`get(0,0)` and `get_or_load(0,0)` — fails with `EmptyText` rather than
returning the empty string. -/
theorem empty_file_reads_fail_empty_text (mode : TextFileMode) :
    (∀ c, chars_to_bytes (TextFile.new [] mode).positionindex c = .err .EmptyText)
    ∧ (∀ b e bc ec,
      absolute_pos (TextFile.new [] mode).positionindex.charsize b e = .ok (bc, ec) →
      TextFile.get (TextFile.new [] mode) b e = .err .EmptyText
        ∧ TextFile.get_or_load (TextFile.new [] mode) b e = .err .EmptyText) := by
  have hp0 : (PositionIndex.new [] mode).positions = [] := by
    rw [new_positions]
    rfl
  have hczb : ∀ c, chars_to_bytes (PositionIndex.new [] mode) c = .err .EmptyText := by
    intro c
    have hb : bsearch (PositionIndex.new [] mode).positions c = .missed 0 := by
      rw [hp0]
      rfl
    rw [chars_to_bytes, hb]
    rfl
  constructor
  · intro c
    exact hczb c
  · intro b e bc ec habs
    have hpi : (TextFile.new [] mode).positionindex = PositionIndex.new [] mode := rfl
    rw [hpi] at habs
    constructor
    · simp only [TextFile.get, hpi, habs, hczb]
    · simp only [TextFile.get_or_load, hpi, habs, hczb]

/-- Spot check of C10: `get(0,0)` and `get_or_load(0,0)` on the empty file. -/
theorem empty_file_reads_fail_empty_text_spot :
    TextFile.get (TextFile.new [] .WithLineIndex) 0 0 = .err .EmptyText
    ∧ TextFile.get_or_load (TextFile.new [] .WithLineIndex) 0 0 = .err .EmptyText :=
  (empty_file_reads_fail_empty_text .WithLineIndex).2 0 0 0 0 (by decide)

/-! ## Claim C8 -/

/-- Claim C8: the position index built by the scan has strictly increasing
`charpos`; for a non-empty file the first entry is at `charpos` 0; entries
occur exactly where the per-character byte width changes; and each entry's
`size` is the byte width of every character from its `charpos` up to (but not
including) the next entry's `charpos` (or the end of the file for the last
entry). -/
theorem position_index_invariants (σ : List Char) (mode : TextFileMode) (hne : σ ≠ []) :
    List.Pairwise (fun p q => p.charpos < q.charpos) (PositionIndex.new σ mode).positions
    ∧ (∃ p, (PositionIndex.new σ mode).positions.head? = some p ∧ p.charpos = 0)
    ∧ (∀ k, k < σ.length →
      ((∃ p ∈ (PositionIndex.new σ mode).positions, p.charpos = k)
        ↔ (k = 0 ∨ widthAt σ k ≠ widthAt σ (k - 1))))
    ∧ (∀ i p, (PositionIndex.new σ mode).positions.get? i = some p →
      ∀ k, p.charpos ≤ k →
        (∀ q, (PositionIndex.new σ mode).positions.get? (i + 1) = some q → k < q.charpos) →
        ((PositionIndex.new σ mode).positions.get? (i + 1) = none → k < σ.length) →
        widthAt σ k = p.size) := by
  obtain ⟨h1, h2, h3, h4, h5, h6, h7, h8⟩ := scanChars_inv σ
  have hP := new_positions σ mode
  have hlen1 : 0 < σ.length := List.length_pos.mpr hne
  refine ⟨?_, ?_, ?_, ?_⟩
  · rw [hP]
    exact h4
  · rw [hP]
    obtain ⟨p, hp, hpc⟩ := h6 0 hlen1 (Or.inl rfl)
    cases hps : (scanChars σ).positions with
    | nil =>
      rw [hps] at hp
      simp at hp
    | cons x xs =>
      refine ⟨x, by simp, ?_⟩
      rw [hps] at hp h4
      rcases List.mem_cons.mp hp with rfl | hmem
      · exact hpc
      · have := (List.pairwise_cons.mp h4).1 p hmem
        omega
  · intro k hk
    rw [hP]
    constructor
    · rintro ⟨p, hp, rfl⟩
      exact h7 p hp
    · intro hbd
      exact h6 k hk hbd
  · intro i p hget k hpk hnext hlast
    rw [hP] at hget hnext hlast
    have hp := List.get?_mem hget
    have hklt : k < σ.length := by
      cases hni : (scanChars σ).positions.get? (i + 1) with
      | none => exact hlast hni
      | some q =>
        have hkq := hnext q hni
        obtain ⟨d, hd, _, _⟩ := h5 q (List.get?_mem hni)
        obtain ⟨hb, _⟩ := List.get?_eq_some.mp hd
        omega
    apply h8 p hp k hpk hklt
    intro q hq hqk
    obtain ⟨j, hj⟩ := List.mem_iff_get?.mp hq
    obtain ⟨hjb, hjq⟩ := List.get?_eq_some.mp hj
    obtain ⟨hib, hiq⟩ := List.get?_eq_some.mp hget
    rcases Nat.lt_trichotomy j i with hlt | heq | hgt
    · have hrel := List.pairwise_iff_get.mp h4 ⟨j, hjb⟩ ⟨i, hib⟩ (by simpa using hlt)
      rw [hjq, hiq] at hrel
      omega
    · subst heq
      rw [hj] at hget
      cases hget
      exact le_refl _
    · have hi1 : i + 1 < (scanChars σ).positions.length := by omega
      obtain ⟨q1, hq1⟩ : ∃ q1, (scanChars σ).positions.get? (i + 1) = some q1 :=
        ⟨_, List.get?_eq_get hi1⟩
      have hkq1 := hnext q1 hq1
      obtain ⟨h1b, h1q⟩ := List.get?_eq_some.mp hq1
      rcases Nat.lt_or_ge (i + 1) j with hj2 | hj2
      · have hrel := List.pairwise_iff_get.mp h4 ⟨i + 1, h1b⟩ ⟨j, hjb⟩ (by simpa using hj2)
        rw [h1q, hjq] at hrel
        omega
      · have hje : j = i + 1 := by omega
        subst hje
        rw [hj] at hq1
        cases hq1
        omega

/-- Spot check of C8 on a concrete mixed-width file. -/
theorem position_index_invariants_spot :
    ∃ p, (PositionIndex.new ['a', 'é'] .WithLineIndex).positions.head? = some p
      ∧ p.charpos = 0 :=
  (position_index_invariants ['a', 'é'] .WithLineIndex (by decide)).2.1

/-! ## Claim C2 -/

theorem byteLen_pos {σ : List Char} (h : σ ≠ []) : 0 < byteLen σ := by
  cases σ with
  | nil => exact absurd rfl h
  | cons c τ =>
    rw [byteLen_cons]
    have := Char.utf8Size_pos c
    omega

theorem absolute_pos_zero_zero (cs : Nat) : absolute_pos cs 0 0 = .ok (0, cs) := by
  unfold absolute_pos
  rw [if_neg (by omega), if_pos (by omega)]
  simp

/-- Claim C2 counterexample: the claim fails on the empty file —
`get_or_load(0,0)` does not return the (empty) file content, it fails with
`EmptyText`. -/
theorem get_or_load_empty_file_fails :
    TextFile.get_or_load (TextFile.new [] .NoLineIndex) 0 0 = .err .EmptyText := by
  decide

/-- Claim C2 (amended to non-empty files): `get_or_load(0,0)` returns exactly
the full original file content, `len()` is the number of Unicode scalar
values of the decoded file, and `len_utf8()` is the file's byte size. -/
theorem get_or_load_roundtrip (σ : List Char) (mode : TextFileMode) (hne : σ ≠ []) :
    (∃ st', TextFile.get_or_load (TextFile.new σ mode) 0 0 = .ok (st', σ))
    ∧ TextFile.len (TextFile.new σ mode) = σ.length
    ∧ TextFile.len_utf8 (TextFile.new σ mode) = byteLen σ := by
  have hB1 : 0 < byteLen σ := byteLen_pos hne
  have hcs : (PositionIndex.new σ mode).charsize = σ.length := new_charsize_eq σ mode
  have hbs : (PositionIndex.new σ mode).bytesize = byteLen σ := new_bytesize_eq σ mode
  have habs : absolute_pos (PositionIndex.new σ mode).charsize 0 0 = .ok (0, σ.length) := by
    rw [absolute_pos_zero_zero, hcs]
  have hcz0 : chars_to_bytes (PositionIndex.new σ mode) 0 = .ok 0 := by
    have h := chars_to_bytes_new σ mode hne (Nat.zero_le σ.length)
    simpa using h
  have hczn : chars_to_bytes (PositionIndex.new σ mode) σ.length = .ok (byteLen σ) := by
    have h := chars_to_bytes_new σ mode hne (le_refl σ.length)
    simpa using h
  have hpi : (TextFile.new σ mode).positionindex = PositionIndex.new σ mode := rfl
  have hfh0 : framehandle (TextFile.new σ mode) 0 (byteLen σ) = none := rfl
  have hload : load_frame (TextFile.new σ mode) 0 (byteLen σ)
      = .ok (⟨σ, [⟨0, byteLen σ, σ⟩], [(0, [0])], PositionIndex.new σ mode⟩, 0) := by
    rw [load_frame]
    simp only [show (TextFile.new σ mode).content = σ from rfl]
    rw [if_neg (by omega), if_neg (by omega), if_neg (by omega)]
    rw [byteSliceChars_full]
    simp [TextFile.new, tableInsert]
  have hload_abs : load_abs (TextFile.new σ mode) 0 σ.length
      = .ok ⟨σ, [⟨0, byteLen σ, σ⟩], [(0, [0])], PositionIndex.new σ mode⟩ := by
    simp only [load_abs, hpi, hcz0, hczn, hload]
  have hfib : findInBucket ([⟨0, byteLen σ, σ⟩] : List TextFrame) (byteLen σ) [0]
      = some 0 := by
    simp [findInBucket]
  have hfh : framehandle ⟨σ, [⟨0, byteLen σ, σ⟩], [(0, [0])], PositionIndex.new σ mode⟩
      0 (byteLen σ) = some 0 := by
    simp [framehandle, scanBuckets, hfib]
  have hframe : TextFile.frame ⟨σ, [⟨0, byteLen σ, σ⟩], [(0, [0])], PositionIndex.new σ mode⟩
      0 (byteLen σ) = some ⟨0, byteLen σ, σ⟩ := by
    simp [TextFile.frame, hfh]
  have hslice : frameSlice ⟨0, byteLen σ, σ⟩ 0 (byteLen σ) = .ok σ := by
    rw [frameSlice, if_neg (Nat.lt_irrefl 0)]
    simp only [Nat.sub_zero]
    rw [byteSliceChars_full]
  have hbyter : get_byterange ⟨σ, [⟨0, byteLen σ, σ⟩], [(0, [0])], PositionIndex.new σ mode⟩
      0 (byteLen σ) = .ok σ := by
    simp only [get_byterange, hframe, hslice]
  have hget' : TextFile.get ⟨σ, [⟨0, byteLen σ, σ⟩], [(0, [0])], PositionIndex.new σ mode⟩
      0 0 = .ok σ := by
    simp only [TextFile.get, habs, hcz0, hczn, hbyter]
  refine ⟨⟨⟨σ, [⟨0, byteLen σ, σ⟩], [(0, [0])], PositionIndex.new σ mode⟩, ?_⟩, ?_, ?_⟩
  · simp only [TextFile.get_or_load, hpi, habs, hcz0, hczn, hfh0, hload_abs, hget']
  · exact hcs
  · exact hbs

/-- Spot check of C2 on a concrete two-character file. -/
theorem get_or_load_roundtrip_spot :
    ∃ st', TextFile.get_or_load (TextFile.new ['a', 'b'] .WithLineIndex) 0 0
      = .ok (st', ['a', 'b']) :=
  (get_or_load_roundtrip ['a', 'b'] .WithLineIndex (by decide)).1

/-! ## Claim C5 -/

theorem findInBucket_some {frames : List TextFrame} {e : Nat} :
    ∀ {hs : List Nat} {h : Nat}, findInBucket frames e hs = some h →
      h ∈ hs ∧ ∃ f, frames.get? h = some f ∧ e ≤ f.endbyte := by
  intro hs
  induction hs with
  | nil => intro h hh; simp [findInBucket] at hh
  | cons h' hs' ih =>
    intro h hh
    cases hg : frames.get? h' with
    | some f =>
      by_cases he : e ≤ f.endbyte
      · simp only [findInBucket, hg, if_pos he] at hh
        cases hh
        exact ⟨List.mem_cons_self _ _, f, hg, he⟩
      · simp only [findInBucket, hg, if_neg he] at hh
        obtain ⟨hmem, hf⟩ := ih hh
        exact ⟨List.mem_cons_of_mem _ hmem, hf⟩
    | none =>
      simp only [findInBucket, hg] at hh
      obtain ⟨hmem, hf⟩ := ih hh
      exact ⟨List.mem_cons_of_mem _ hmem, hf⟩

theorem findInBucket_none {frames : List TextFrame} {e : Nat} :
    ∀ {hs : List Nat}, findInBucket frames e hs = none →
      ∀ h ∈ hs, ∀ f, frames.get? h = some f → f.endbyte < e := by
  intro hs
  induction hs with
  | nil => intro _ h hh; simp at hh
  | cons h' hs' ih =>
    intro hh h hmem f hf
    cases hg : frames.get? h' with
    | some f' =>
      by_cases he : e ≤ f'.endbyte
      · simp only [findInBucket, hg, if_pos he] at hh
        cases hh
      · simp only [findInBucket, hg, if_neg he] at hh
        rcases List.mem_cons.mp hmem with rfl | hmem'
        · rw [hf] at hg
          cases hg
          omega
        · exact ih hh h hmem' f hf
    | none =>
      simp only [findInBucket, hg] at hh
      rcases List.mem_cons.mp hmem with rfl | hmem'
      · rw [hf] at hg
        cases hg
      · exact ih hh h hmem' f hf

theorem scanBuckets_some {frames : List TextFrame} {e : Nat} :
    ∀ {L : List (Nat × List Nat)} {h : Nat}, scanBuckets frames e L = some h →
      ∃ L1 kv L2, L = L1 ++ kv :: L2
        ∧ (∀ u ∈ L1, findInBucket frames e u.2 = none)
        ∧ findInBucket frames e kv.2 = some h := by
  intro L
  induction L with
  | nil => intro h hh; simp [scanBuckets] at hh
  | cons kv rest ih =>
    intro h hh
    cases hfb : findInBucket frames e kv.2 with
    | some h' =>
      simp only [scanBuckets, hfb] at hh
      cases hh
      exact ⟨[], kv, rest, rfl, by simp, hfb⟩
    | none =>
      simp only [scanBuckets, hfb] at hh
      obtain ⟨L1, kv', L2, hL, hn1, hf1⟩ := ih hh
      refine ⟨kv :: L1, kv', L2, by rw [hL]; rfl, ?_, hf1⟩
      intro u hu
      rcases List.mem_cons.mp hu with rfl | hu'
      · exact hfb
      · exact hn1 u hu'

theorem scanBuckets_none {frames : List TextFrame} {e : Nat} :
    ∀ {L : List (Nat × List Nat)}, scanBuckets frames e L = none →
      ∀ kv ∈ L, findInBucket frames e kv.2 = none := by
  intro L
  induction L with
  | nil => intro _ kv hkv; simp at hkv
  | cons kv' rest ih =>
    intro hh kv hkv
    cases hfb : findInBucket frames e kv'.2 with
    | some h' => simp only [scanBuckets, hfb] at hh; cases hh
    | none =>
      simp only [scanBuckets, hfb] at hh
      rcases List.mem_cons.mp hkv with rfl | hkv'
      · exact hfb
      · exact ih hh kv hkv'

theorem frameSlice_ne_notLoaded (f : TextFrame) (b e : Nat) :
    frameSlice f b e ≠ .err .NotLoaded := by
  rw [frameSlice]
  split
  · simp
  · cases hbs : byteSliceChars f.text (b - f.beginbyte) (e - f.beginbyte) <;> simp [hbs]

theorem registered_bucket {st : TextFileState}
    (hwf : framesWF st) {i : Nat} {f : TextFrame}
    (hget : st.frames.get? i = some f) :
    ∃ kv ∈ st.frametable, kv.1 = f.beginbyte ∧ i ∈ kv.2 := by
  obtain ⟨hsort, hhandles, hreg⟩ := hwf
  obtain ⟨hib, _⟩ := List.get?_eq_some.mp hget
  have hr := hreg i (List.mem_range.mpr hib)
  rw [registeredB, List.any_eq_true] at hr
  obtain ⟨kv, hkv, hP⟩ := hr
  rw [Bool.and_eq_true] at hP
  obtain ⟨h1, h2⟩ := hP
  rw [hget] at h1
  refine ⟨kv, hkv, by simpa using h1, ?_⟩
  simpa [List.contains] using h2

/-- Claim C5: under the frame-cache invariant, `framehandle` returns a frame
with `beginbyte ≤ b` and `endbyte ≥ e` (starting at the greatest start offset
among covering frames) whenever some loaded frame satisfies both conditions,
and returns `none` exactly when no loaded frame covers the request; in
particular, a `get` of a byte range covered by previously loaded (possibly
overlapping) frames cannot fail with `NotLoaded`. -/
theorem framehandle_coverage (st : TextFileState) (hwf : framesWF st) (b e : Nat) :
    (∀ h, framehandle st b e = some h →
      ∃ f, st.frames.get? h = some f ∧ f.beginbyte ≤ b ∧ e ≤ f.endbyte
        ∧ ∀ f' ∈ st.frames, f'.beginbyte ≤ b → e ≤ f'.endbyte → f'.beginbyte ≤ f.beginbyte)
    ∧ (framehandle st b e = none ↔ ∀ f ∈ st.frames, ¬(f.beginbyte ≤ b ∧ e ≤ f.endbyte))
    ∧ ((∃ f ∈ st.frames, f.beginbyte ≤ b ∧ e ≤ f.endbyte) →
      get_byterange st b e ≠ .err .NotLoaded) := by
  obtain ⟨hsort, hhandles, hreg⟩ := hwf
  have hsortL : List.Pairwise (fun u v => v.1 < u.1)
      ((st.frametable.filter (fun kv => decide (kv.1 ≤ b))).reverse) := by
    rw [List.pairwise_reverse]
    exact List.Pairwise.filter _ hsort
  have hmemL : ∀ kv, kv ∈ (st.frametable.filter (fun kv => decide (kv.1 ≤ b))).reverse
      ↔ (kv ∈ st.frametable ∧ kv.1 ≤ b) := by
    intro kv
    rw [List.mem_reverse, List.mem_filter]
    simp
  have hcov : ∀ {f : TextFrame}, f ∈ st.frames → f.beginbyte ≤ b → e ≤ f.endbyte →
      ∃ kv, kv ∈ (st.frametable.filter (fun kv => decide (kv.1 ≤ b))).reverse
        ∧ kv.1 = f.beginbyte ∧ ∃ i, i ∈ kv.2 ∧ st.frames.get? i = some f := by
    intro f hf hfb hfe
    obtain ⟨i, hi⟩ := List.mem_iff_get?.mp hf
    obtain ⟨kv, hkv, hkv1, hkv2⟩ := registered_bucket ⟨hsort, hhandles, hreg⟩ hi
    exact ⟨kv, (hmemL kv).mpr ⟨hkv, by omega⟩, hkv1, i, hkv2, hi⟩
  have hsound : ∀ h, framehandle st b e = some h →
      ∃ f, st.frames.get? h = some f ∧ f.beginbyte ≤ b ∧ e ≤ f.endbyte
        ∧ ∀ f' ∈ st.frames, f'.beginbyte ≤ b → e ≤ f'.endbyte → f'.beginbyte ≤ f.beginbyte := by
    intro h hfh
    rw [framehandle] at hfh
    obtain ⟨L1, kv, L2, hL, hn1, hf1⟩ := scanBuckets_some hfh
    obtain ⟨hhm, f, hgf, hef⟩ := findInBucket_some hf1
    have hkvL : kv ∈ (st.frametable.filter (fun kv => decide (kv.1 ≤ b))).reverse := by
      rw [hL]
      exact List.mem_append_right _ (List.mem_cons_self _ _)
    obtain ⟨hkvT, hkvb⟩ := (hmemL kv).mp hkvL
    have hhb := hhandles kv hkvT h hhm
    rw [handleAtB, hgf] at hhb
    have hfb : f.beginbyte = kv.1 := by simpa using hhb
    refine ⟨f, hgf, by omega, hef, ?_⟩
    intro f' hf' hfb' hfe'
    by_contra hgt
    obtain ⟨kv', hkv'L, hkv'1, i, hikv', hif'⟩ := hcov hf' hfb' hfe'
    have hkv'gt : kv.1 < kv'.1 := by omega
    have hkv'L1 : kv' ∈ L1 := by
      rw [hL] at hkv'L hsortL
      rcases List.mem_append.mp hkv'L with h1 | h2
      · exact h1
      · rcases List.mem_cons.mp h2 with rfl | h3
        · omega
        · rw [List.pairwise_append] at hsortL
          have := (List.pairwise_cons.mp hsortL.2.1).1 kv' h3
          omega
    have hn := hn1 kv' hkv'L1
    have := findInBucket_none hn i hikv' f' hif'
    omega
  refine ⟨hsound, ⟨?_, ?_⟩, ?_⟩
  · intro hnone f hf ⟨hfb, hfe⟩
    rw [framehandle] at hnone
    obtain ⟨kv, hkvL, hkv1, i, hikv, hif⟩ := hcov hf hfb hfe
    have hn := scanBuckets_none hnone kv hkvL
    have := findInBucket_none hn i hikv f hif
    omega
  · intro hnc
    cases hfh : framehandle st b e with
    | none => rfl
    | some h =>
      obtain ⟨f, hgf, hfb, hfe, _⟩ := hsound h hfh
      exact absurd ⟨hfb, hfe⟩ (hnc f (List.get?_mem hgf))
  · rintro ⟨f, hf, hfb, hfe⟩
    cases hfh : framehandle st b e with
    | none =>
      obtain ⟨kv, hkvL, hkv1, i, hikv, hif⟩ := hcov hf hfb hfe
      rw [framehandle] at hfh
      have hn := scanBuckets_none hfh kv hkvL
      have := findInBucket_none hn i hikv f hif
      omega
    | some h =>
      obtain ⟨f', hgf', _, _, _⟩ := hsound h hfh
      rw [get_byterange]
      have hfr : TextFile.frame st b e = some f' := by
        rw [TextFile.frame, hfh]
        simpa using hgf'
      rw [hfr]
      exact frameSlice_ne_notLoaded f' b e

/-- Spot check of C5: two overlapping `load_frame` calls (frames `[0,3)` and
`[1,4)`), then coverage of the sub-range `[1,3)` that both cover: the lookup
succeeds and a `get` of that range cannot fail with `NotLoaded`. -/
theorem framehandle_coverage_spot :
    load_frame (TextFile.new ['a', 'b', 'c', 'd'] .NoLineIndex) 0 3
      = .ok (⟨['a', 'b', 'c', 'd'], [⟨0, 3, ['a', 'b', 'c']⟩], [(0, [0])],
          ⟨4, 4, [⟨0, 0, 1⟩], []⟩⟩, 0)
    ∧ load_frame ⟨['a', 'b', 'c', 'd'], [⟨0, 3, ['a', 'b', 'c']⟩], [(0, [0])],
          ⟨4, 4, [⟨0, 0, 1⟩], []⟩⟩ 1 4
      = .ok (⟨['a', 'b', 'c', 'd'],
          [⟨0, 3, ['a', 'b', 'c']⟩, ⟨1, 4, ['b', 'c', 'd']⟩], [(0, [0]), (1, [1])],
          ⟨4, 4, [⟨0, 0, 1⟩], []⟩⟩, 1)
    ∧ framehandle ⟨['a', 'b', 'c', 'd'],
          [⟨0, 3, ['a', 'b', 'c']⟩, ⟨1, 4, ['b', 'c', 'd']⟩], [(0, [0]), (1, [1])],
          ⟨4, 4, [⟨0, 0, 1⟩], []⟩⟩ 1 3 ≠ none
    ∧ get_byterange ⟨['a', 'b', 'c', 'd'],
          [⟨0, 3, ['a', 'b', 'c']⟩, ⟨1, 4, ['b', 'c', 'd']⟩], [(0, [0]), (1, [1])],
          ⟨4, 4, [⟨0, 0, 1⟩], []⟩⟩ 1 3 ≠ .err .NotLoaded := by
  refine ⟨by decide, by decide, ?_, ?_⟩
  · intro hnone
    have h := (framehandle_coverage ⟨['a', 'b', 'c', 'd'],
        [⟨0, 3, ['a', 'b', 'c']⟩, ⟨1, 4, ['b', 'c', 'd']⟩], [(0, [0]), (1, [1])],
        ⟨4, 4, [⟨0, 0, 1⟩], []⟩⟩ (by decide) 1 3).2.1.mp hnone
    exact h ⟨1, 4, ['b', 'c', 'd']⟩ (by decide) ⟨by decide, by decide⟩
  · exact (framehandle_coverage ⟨['a', 'b', 'c', 'd'],
        [⟨0, 3, ['a', 'b', 'c']⟩, ⟨1, 4, ['b', 'c', 'd']⟩], [(0, [0]), (1, [1])],
        ⟨4, 4, [⟨0, 0, 1⟩], []⟩⟩ (by decide) 1 3).2.2
      ⟨⟨1, 4, ['b', 'c', 'd']⟩, by decide, by decide, by decide⟩

/-! ## Claim C6 -/

theorem dc_ascii (b0 : Nat) (rest : List Nat) (h1 : b0 < 128) :
    decodeChar (b0 :: rest) = some (Char.ofNat b0, rest) := by
  simp only [decodeChar.eq_def]
  rw [if_pos h1]

theorem dc_bad_lead (b0 : Nat) (rest : List Nat) (h1 : ¬ b0 < 128) (h2 : b0 < 194) :
    decodeChar (b0 :: rest) = none := by
  simp only [decodeChar.eq_def]
  rw [if_neg h1, if_pos h2]

theorem dc2 (b0 b1 : Nat) (rest : List Nat)
    (h1 : ¬ b0 < 128) (h2 : ¬ b0 < 194) (h3 : b0 < 224) :
    decodeChar (b0 :: b1 :: rest)
      = (if contOK b1 then some (Char.ofNat ((b0 - 192) * 64 + (b1 - 128)), rest)
        else none) := by
  rw [decodeChar, if_neg h1, if_neg h2, if_pos h3]

theorem dc2_short (b0 : Nat) (h1 : ¬ b0 < 128) (h2 : ¬ b0 < 194) (h3 : b0 < 224) :
    decodeChar [b0] = none := by
  rw [decodeChar, if_neg h1, if_neg h2, if_pos h3]

theorem dc3 (b0 b1 b2 : Nat) (rest : List Nat)
    (h1 : ¬ b0 < 128) (h2 : ¬ b0 < 194) (h3 : ¬ b0 < 224) (h4 : b0 < 240) :
    decodeChar (b0 :: b1 :: b2 :: rest)
      = (if contOK b1 && contOK b2 then
          if 2048 ≤ (b0 - 224) * 4096 + (b1 - 128) * 64 + (b2 - 128)
              ∧ ¬(55296 ≤ (b0 - 224) * 4096 + (b1 - 128) * 64 + (b2 - 128)
                  ∧ (b0 - 224) * 4096 + (b1 - 128) * 64 + (b2 - 128) < 57344) then
            some (Char.ofNat ((b0 - 224) * 4096 + (b1 - 128) * 64 + (b2 - 128)), rest)
          else none
        else none) := by
  rw [decodeChar, if_neg h1, if_neg h2, if_neg h3, if_pos h4]

theorem dc3_short1 (b0 : Nat)
    (h1 : ¬ b0 < 128) (h2 : ¬ b0 < 194) (h3 : ¬ b0 < 224) (h4 : b0 < 240) :
    decodeChar [b0] = none := by
  rw [decodeChar, if_neg h1, if_neg h2, if_neg h3, if_pos h4]

theorem dc3_short2 (b0 b1 : Nat)
    (h1 : ¬ b0 < 128) (h2 : ¬ b0 < 194) (h3 : ¬ b0 < 224) (h4 : b0 < 240) :
    decodeChar [b0, b1] = none := by
  rw [decodeChar, if_neg h1, if_neg h2, if_neg h3, if_pos h4]

theorem dc4 (b0 b1 b2 b3 : Nat) (rest : List Nat)
    (h1 : ¬ b0 < 128) (h2 : ¬ b0 < 194) (h3 : ¬ b0 < 224) (h4 : ¬ b0 < 240)
    (h5 : b0 < 245) :
    decodeChar (b0 :: b1 :: b2 :: b3 :: rest)
      = (if contOK b1 && contOK b2 && contOK b3 then
          if 65536 ≤ (b0 - 240) * 262144 + (b1 - 128) * 4096 + (b2 - 128) * 64 + (b3 - 128)
              ∧ (b0 - 240) * 262144 + (b1 - 128) * 4096 + (b2 - 128) * 64 + (b3 - 128)
                < 1114112 then
            some (Char.ofNat ((b0 - 240) * 262144 + (b1 - 128) * 4096
              + (b2 - 128) * 64 + (b3 - 128)), rest)
          else none
        else none) := by
  rw [decodeChar, if_neg h1, if_neg h2, if_neg h3, if_neg h4, if_pos h5]

theorem dc4_short1 (b0 : Nat)
    (h1 : ¬ b0 < 128) (h2 : ¬ b0 < 194) (h3 : ¬ b0 < 224) (h4 : ¬ b0 < 240)
    (h5 : b0 < 245) : decodeChar [b0] = none := by
  rw [decodeChar, if_neg h1, if_neg h2, if_neg h3, if_neg h4, if_pos h5]

theorem dc4_short2 (b0 b1 : Nat)
    (h1 : ¬ b0 < 128) (h2 : ¬ b0 < 194) (h3 : ¬ b0 < 224) (h4 : ¬ b0 < 240)
    (h5 : b0 < 245) : decodeChar [b0, b1] = none := by
  rw [decodeChar, if_neg h1, if_neg h2, if_neg h3, if_neg h4, if_pos h5]

theorem dc4_short3 (b0 b1 b2 : Nat)
    (h1 : ¬ b0 < 128) (h2 : ¬ b0 < 194) (h3 : ¬ b0 < 224) (h4 : ¬ b0 < 240)
    (h5 : b0 < 245) : decodeChar [b0, b1, b2] = none := by
  rw [decodeChar, if_neg h1, if_neg h2, if_neg h3, if_neg h4, if_pos h5]

theorem dc_bad_hi (b0 : Nat) (rest : List Nat)
    (h1 : ¬ b0 < 128) (h2 : ¬ b0 < 194) (h3 : ¬ b0 < 224) (h4 : ¬ b0 < 240)
    (h5 : ¬ b0 < 245) : decodeChar (b0 :: rest) = none := by
  simp only [decodeChar.eq_def]
  rw [if_neg h1, if_neg h2, if_neg h3, if_neg h4, if_neg h5]

theorem decodeChar_shrinks : ∀ {bs : List Nat} {c : Char} {r : List Nat},
    decodeChar bs = some (c, r) → r.length < bs.length := by
  intro bs c r h
  cases bs with
  | nil => simp [decodeChar] at h
  | cons b0 rest =>
    by_cases h1 : b0 < 128
    · rw [dc_ascii b0 rest h1] at h
      cases h
      simp
    · by_cases h2 : b0 < 194
      · rw [dc_bad_lead b0 rest h1 h2] at h
        simp at h
      · by_cases h3 : b0 < 224
        · cases rest with
          | nil =>
            rw [dc2_short b0 h1 h2 h3] at h
            simp at h
          | cons b1 rest' =>
            rw [dc2 b0 b1 rest' h1 h2 h3] at h
            repeat' split at h
            all_goals first
              | (simp only [Option.some.injEq, Prod.mk.injEq] at h
                 obtain ⟨hceq, hreq⟩ := h
                 subst hreq
                 simp_arith)
              | simp at h
        · by_cases h4 : b0 < 240
          · cases rest with
            | nil =>
              rw [dc3_short1 b0 h1 h2 h3 h4] at h
              simp at h
            | cons b1 rest1 =>
              cases rest1 with
              | nil =>
                rw [dc3_short2 b0 b1 h1 h2 h3 h4] at h
                simp at h
              | cons b2 rest' =>
                rw [dc3 b0 b1 b2 rest' h1 h2 h3 h4] at h
                repeat' split at h
                all_goals first
              | (simp only [Option.some.injEq, Prod.mk.injEq] at h
                 obtain ⟨hceq, hreq⟩ := h
                 subst hreq
                 simp_arith)
              | simp at h
          · by_cases h5 : b0 < 245
            · cases rest with
              | nil =>
                rw [dc4_short1 b0 h1 h2 h3 h4 h5] at h
                simp at h
              | cons b1 rest1 =>
                cases rest1 with
                | nil =>
                  rw [dc4_short2 b0 b1 h1 h2 h3 h4 h5] at h
                  simp at h
                | cons b2 rest2 =>
                  cases rest2 with
                  | nil =>
                    rw [dc4_short3 b0 b1 b2 h1 h2 h3 h4 h5] at h
                    simp at h
                  | cons b3 rest' =>
                    rw [dc4 b0 b1 b2 b3 rest' h1 h2 h3 h4 h5] at h
                    repeat' split at h
                    all_goals first
              | (simp only [Option.some.injEq, Prod.mk.injEq] at h
                 obtain ⟨hceq, hreq⟩ := h
                 subst hreq
                 simp_arith)
              | simp at h
            · rw [dc_bad_hi b0 rest h1 h2 h3 h4 h5] at h
              simp at h

theorem decodeChar_append (b : List Nat) :
    ∀ {a : List Nat} {c : Char} {r : List Nat},
      decodeChar a = some (c, r) → decodeChar (a ++ b) = some (c, r ++ b) := by
  intro a c r h
  cases a with
  | nil => simp [decodeChar] at h
  | cons b0 rest =>
    by_cases h1 : b0 < 128
    · rw [dc_ascii b0 rest h1] at h
      simp only [Option.some.injEq, Prod.mk.injEq] at h
      obtain ⟨hceq, hreq⟩ := h
      subst hceq
      subst hreq
      rw [List.cons_append, dc_ascii b0 _ h1]
    · by_cases h2 : b0 < 194
      · rw [dc_bad_lead b0 rest h1 h2] at h
        simp at h
      · by_cases h3 : b0 < 224
        · cases rest with
          | nil =>
            rw [dc2_short b0 h1 h2 h3] at h
            simp at h
          | cons b1 rest' =>
            rw [dc2 b0 b1 rest' h1 h2 h3] at h
            rw [show (b0 :: b1 :: rest') ++ b = b0 :: b1 :: (rest' ++ b) from rfl]
            rw [dc2 b0 b1 (rest' ++ b) h1 h2 h3]
            by_cases hc : contOK b1 = true
            · rw [if_pos hc] at h
              rw [if_pos hc]
              simp only [Option.some.injEq, Prod.mk.injEq] at h
              obtain ⟨hceq, hreq⟩ := h
              subst hceq
              subst hreq
              rfl
            · rw [if_neg hc] at h
              simp at h
        · by_cases h4 : b0 < 240
          · cases rest with
            | nil =>
              rw [dc3_short1 b0 h1 h2 h3 h4] at h
              simp at h
            | cons b1 rest1 =>
              cases rest1 with
              | nil =>
                rw [dc3_short2 b0 b1 h1 h2 h3 h4] at h
                simp at h
              | cons b2 rest' =>
                rw [dc3 b0 b1 b2 rest' h1 h2 h3 h4] at h
                rw [show (b0 :: b1 :: b2 :: rest') ++ b
                  = b0 :: b1 :: b2 :: (rest' ++ b) from rfl]
                rw [dc3 b0 b1 b2 (rest' ++ b) h1 h2 h3 h4]
                by_cases hc : (contOK b1 && contOK b2) = true
                · rw [if_pos hc] at h
                  rw [if_pos hc]
                  split at h
                  next hr =>
                    rw [if_pos hr]
                    simp only [Option.some.injEq, Prod.mk.injEq] at h
                    obtain ⟨hceq, hreq⟩ := h
                    subst hceq
                    subst hreq
                    rfl
                  next hr =>
                    simp at h
                · rw [if_neg hc] at h
                  simp at h
          · by_cases h5 : b0 < 245
            · cases rest with
              | nil =>
                rw [dc4_short1 b0 h1 h2 h3 h4 h5] at h
                simp at h
              | cons b1 rest1 =>
                cases rest1 with
                | nil =>
                  rw [dc4_short2 b0 b1 h1 h2 h3 h4 h5] at h
                  simp at h
                | cons b2 rest2 =>
                  cases rest2 with
                  | nil =>
                    rw [dc4_short3 b0 b1 b2 h1 h2 h3 h4 h5] at h
                    simp at h
                  | cons b3 rest' =>
                    rw [dc4 b0 b1 b2 b3 rest' h1 h2 h3 h4 h5] at h
                    rw [show (b0 :: b1 :: b2 :: b3 :: rest') ++ b
                      = b0 :: b1 :: b2 :: b3 :: (rest' ++ b) from rfl]
                    rw [dc4 b0 b1 b2 b3 (rest' ++ b) h1 h2 h3 h4 h5]
                    by_cases hc : (contOK b1 && contOK b2 && contOK b3) = true
                    · rw [if_pos hc] at h
                      rw [if_pos hc]
                      split at h
                      next hr =>
                        rw [if_pos hr]
                        simp only [Option.some.injEq, Prod.mk.injEq] at h
                        obtain ⟨hceq, hreq⟩ := h
                        subst hceq
                        subst hreq
                        rfl
                      next hr =>
                        simp at h
                    · rw [if_neg hc] at h
                      simp at h
            · rw [dc_bad_hi b0 rest h1 h2 h3 h4 h5] at h
              simp at h

theorem decodeUtf8Go_fuel : ∀ (f1 f2 : Nat) (l : List Nat),
    l.length ≤ f1 → l.length ≤ f2 → decodeUtf8Go f1 l = decodeUtf8Go f2 l := by
  intro f1
  induction f1 with
  | zero =>
    intro f2 l h1 h2
    have hl : l = [] := List.eq_nil_of_length_eq_zero (by omega)
    subst hl
    cases f2 <;> rfl
  | succ f1 ih =>
    intro f2 l h1 h2
    cases l with
    | nil => cases f2 <;> rfl
    | cons b0 rest =>
      cases f2 with
      | zero => simp at h2
      | succ f2 =>
        cases hdc : decodeChar (b0 :: rest) with
        | none => simp only [decodeUtf8Go, hdc]
        | some pr =>
          obtain ⟨c, r⟩ := pr
          have hshr := decodeChar_shrinks hdc
          simp only [decodeUtf8Go, hdc]
          rw [ih f2 r (by simp only [List.length_cons] at h1 hshr; omega)
            (by simp only [List.length_cons] at h2 hshr; omega)]

theorem decodeUtf8_append (b : List Nat) :
    ∀ (fuel : Nat) (a : List Nat) (as : List Char), a.length ≤ fuel →
      decodeUtf8Go fuel a = some as →
      decodeUtf8 (a ++ b) = (decodeUtf8 b).map (fun cs => as ++ cs) := by
  intro fuel
  induction fuel with
  | zero =>
    intro a as h1 h2
    have hl : a = [] := List.eq_nil_of_length_eq_zero (by omega)
    subst hl
    have has : as = [] := by
      simpa [decodeUtf8Go] using h2.symm
    subst has
    simp only [List.nil_append]
    cases decodeUtf8 b <;> simp
  | succ fuel ih =>
    intro a as h1 h2
    cases a with
    | nil =>
      have has : as = [] := by
        simpa [decodeUtf8Go] using h2.symm
      subst has
      simp only [List.nil_append]
      cases decodeUtf8 b <;> simp
    | cons b0 rest =>
      rw [decodeUtf8Go] at h2
      cases hdc : decodeChar (b0 :: rest) with
      | none =>
        rw [hdc] at h2
        simp at h2
      | some pr =>
        obtain ⟨c, r⟩ := pr
        rw [hdc] at h2
        simp only [Option.map_eq_some'] at h2
        obtain ⟨cs, hcs, hras⟩ := h2
        subst hras
        have hshr := decodeChar_shrinks hdc
        have hr : r.length ≤ fuel := by
          simp only [List.length_cons] at h1 hshr
          omega
        have hrec := ih r cs hr hcs
        have hcons : (b0 :: rest) ++ b = b0 :: (rest ++ b) := rfl
        rw [hcons]
        have hdc2 : decodeChar (b0 :: (rest ++ b)) = some (c, r ++ b) := by
          have hap := decodeChar_append b hdc
          simpa using hap
        rw [decodeUtf8]
        simp only [List.length_cons, decodeUtf8Go, hdc2]
        have hfuel : decodeUtf8Go (rest ++ b).length (r ++ b)
            = decodeUtf8Go (r ++ b).length (r ++ b) := by
          apply decodeUtf8Go_fuel
          · simp only [List.length_cons, List.length_append] at hshr ⊢
            omega
          · exact le_refl _
        rw [hfuel]
        have hdu : decodeUtf8Go (r ++ b).length (r ++ b) = decodeUtf8 (r ++ b) := rfl
        rw [hdu, hrec]
        cases decodeUtf8 b <;> simp

theorem splitBytesLines_flatten : ∀ bs : List Nat, (splitBytesLines bs).flatten = bs := by
  intro bs
  induction bs with
  | nil => rfl
  | cons b rest ih =>
    by_cases hb : b = 10
    · simp [splitBytesLines, hb, ih]
    · rw [splitBytesLines]
      simp only [if_neg hb]
      cases hsp : splitBytesLines rest with
      | nil => simpa [hsp] using ih
      | cons l ls =>
        rw [hsp] at ih
        simpa using ih

theorem buildIndexLines_IOError (mode : TextFileMode) :
    ∀ (lss : List (List Nat)) (s : ScanState),
      decodeUtf8 lss.flatten = none → buildIndexLines mode s lss = .err .IOError := by
  intro lss
  induction lss with
  | nil =>
    intro s h
    simp [decodeUtf8, decodeUtf8Go] at h
  | cons l ls ih =>
    intro s h
    cases hd : decodeUtf8 l with
    | none => simp only [buildIndexLines, hd]
    | some cs =>
      rw [List.flatten_cons] at h
      rw [decodeUtf8_append ls.flatten l.length l cs (le_refl _) hd] at h
      have hnone : decodeUtf8 ls.flatten = none := by
        cases hx : decodeUtf8 ls.flatten
        · rfl
        · rw [hx] at h
          simp at h
      simp only [buildIndexLines, hd]
      exact ih _ hnone

/-- Claim C6 counterexample: on the invalid-UTF-8 file `[0xFF]`, building the
position index fails with the `IOError` kind, not the `Utf8Error` kind the
claim names. -/
theorem new_bytes_invalid_is_io_error_not_utf8 :
    PositionIndex.new_bytes [255] .WithLineIndex = .err .IOError
      ∧ Error.IOError ≠ Error.Utf8Error :=
  ⟨by decide, by decide⟩

/-- Claim C6 (amended): building the position index on a file whose byte
content is not valid UTF-8 fails — but with the `IOFailure` kind (the line
reader reports invalid UTF-8 as an `io::ErrorKind::InvalidData` I/O error,
which `PositionIndex::new` wraps as `Error::IOError`), not with the
`Utf8Decode` kind, which arises only at frame-load time. -/
theorem new_bytes_invalid_utf8_io_error (bytes : List Nat) (mode : TextFileMode)
    (h : decodeUtf8 bytes = none) :
    PositionIndex.new_bytes bytes mode = .err .IOError := by
  have hb := buildIndexLines_IOError mode (splitBytesLines bytes) ⟨initCore, []⟩
    (by rw [splitBytesLines_flatten]; exact h)
  simp only [PositionIndex.new_bytes, hb]

/-- Spot check of C6 on a concrete invalid file. -/
theorem new_bytes_invalid_utf8_io_error_spot :
    PositionIndex.new_bytes [97, 255] .NoLineIndex = .err .IOError :=
  new_bytes_invalid_utf8_io_error [97, 255] .NoLineIndex (by decide)
